import Mathlib

/-
  Verification of the visualization bridging subsystem of the
  sql-visualization-agent repository.

  The embedding covers:
  * the consumer-side extraction of `[VIZ:filename]` tags
    (src/app.py, the regex `\[VIZ:([a-zA-Z0-9_]+\.png)\]` together with
    `re.findall` / `re.sub`),
  * the artifact store `_save_figure` (src/agent/visualization_tools.py),
  * the payload normalizer `_parse_data` (json.loads / ast.literal_eval
    fallback chain),
  * the renderers `create_bar_chart`, `create_line_chart`,
    `create_box_plot` at the level of column resolution, error raising
    and artifact writing.

  Text is modelled as `List Char`; machine strings convert via
  `String.toList`.
-/

namespace SqlViz

/-! ## Character classes -/

/-- The character class `[a-zA-Z0-9_]` of the viz-tag regex. -/
def isWordChar (c : Char) : Bool := c.isAlphanum || c == '_'

/-- Lowercase hexadecimal digits, the alphabet of `uuid4().hex`. -/
def isLowerHex (c : Char) : Bool := c.isDigit || ('a' ≤ c && c ≤ 'f')

/-! ## The consumer-side tag scanner

`re.findall(r'\[VIZ:([a-zA-Z0-9_]+\.png)\]', text)` and
`re.sub(pattern, '', text)` from src/app.py.  The pattern has no
backtracking freedom: `[a-zA-Z0-9_]+` is a maximal word run (it can never
consume `.`), after which the literal `.png]` must follow.  So a direct
scanner is an exact model of the regex engine on this pattern. -/

/-- Split a character list into its maximal leading run of word
characters and the rest. -/
def takeWord : List Char → List Char × List Char
  | [] => ([], [])
  | c :: cs =>
    if isWordChar c then
      let p := takeWord cs
      (c :: p.1, p.2)
    else
      ([], c :: cs)

/-- Strip an expected literal token from the front of the input. -/
def stripTok : List Char → List Char → Option (List Char)
  | [], cs => some cs
  | _ :: _, [] => none
  | t :: ts, c :: cs => if c = t then stripTok ts cs else none

def tagOpen : List Char := '[' :: 'V' :: 'I' :: 'Z' :: ':' :: []

def tagClose : List Char := '.' :: 'p' :: 'n' :: 'g' :: ']' :: []

def pngExt : List Char := '.' :: 'p' :: 'n' :: 'g' :: []

/-- Try to match the regex anchored at the current position.  On success
returns the captured group (`[a-zA-Z0-9_]+\.png`) and the input
remaining after the closing `]`. -/
def tryTag (cs : List Char) : Option (List Char × List Char) :=
  match stripTok tagOpen cs with
  | none => none
  | some r =>
    let p := takeWord r
    if p.1.isEmpty then none
    else
      match stripTok tagClose p.2 with
      | none => none
      | some r3 => some (p.1 ++ pngExt, r3)

/-- Fuel-indexed scanner: collects all matches left to right
(non-overlapping, continuing after each match, exactly like
`re.findall`) and simultaneously the text with all matches removed
(exactly like `re.sub(pattern, '')`).  Any fuel `≥` the input length is
enough; the fuel merely makes the recursion structural. -/
def vizScanF : Nat → List Char → List (List Char) × List Char
  | 0, cs => ([], cs)
  | _ + 1, [] => ([], [])
  | f + 1, c :: rest =>
    match tryTag (c :: rest) with
    | some (name, r) =>
      let p := vizScanF f r
      (name :: p.1, p.2)
    | none =>
      let p := vizScanF f rest
      (p.1, c :: p.2)

/-- `re.findall(viz_pattern, s)` of src/app.py. -/
def vizFindAll (s : List Char) : List (List Char) := (vizScanF s.length s).1

/-- `re.sub(viz_pattern, '', s)` of src/app.py. -/
def vizSub (s : List Char) : List Char := (vizScanF s.length s).2

/-- Build the embedded-reference tag `[VIZ:<name>]` for a filename
(producer side of the protocol). -/
def vizTag (name : List Char) : List Char := tagOpen ++ name ++ [']']

/-- Decides whether a filename is of the shape the regex can capture:
a nonempty run of word characters followed by exactly `.png`. -/
def isValidFnameB (name : List Char) : Bool :=
  let p := takeWord name
  (!p.1.isEmpty) && p.2 == pngExt

/-! ## Path model

A fragment of `os.path` sufficient for `_save_figure` and the consumer:
`os.path.join` of a directory and a relative filename, `os.path.abspath`
(absolute-or-`cwd`-prefixed, then `..`/`.`/empty segment resolution), and
the base-name (final path segment).  `cwd` is assumed absolute, as
`os.getcwd()` always is. -/

def splitSlash : List Char → List (List Char)
  | [] => [[]]
  | c :: cs =>
    match splitSlash cs with
    | [] => [[]]
    | p :: ps => if c = '/' then [] :: p :: ps else (c :: p) :: ps

/-- Stack-based resolution of `.`/`..`/empty path segments, as
`os.path.normpath` does for absolute paths. -/
def resolveParts : List (List Char) → List (List Char) → List (List Char)
  | stack, [] => stack.reverse
  | stack, p :: ps =>
    if p = [] ∨ p = ['.'] then resolveParts stack ps
    else if p = ['.', '.'] then resolveParts stack.tail ps
    else resolveParts (p :: stack) ps

def joinSlash : List (List Char) → List Char
  | [] => []
  | [p] => p
  | p :: ps => p ++ '/' :: joinSlash ps

/-- `os.path.abspath`: prepend the (absolute) working directory when the
path is relative, then normalize.  The result always starts with `/`. -/
def abspath (cwd p : List Char) : List Char :=
  let full := if p.head? = some '/' then p else cwd ++ '/' :: p
  '/' :: joinSlash (resolveParts [] (splitSlash full))

/-- `os.path.basename`: everything after the last `/`. -/
def baseName (s : List Char) : List Char :=
  (s.reverse.takeWhile (fun c => c != '/')).reverse

/-- `os.path.join` for one directory and one following component. -/
def joinPath (a b : List Char) : List Char :=
  if b.head? = some '/' then b else a ++ '/' :: b

/-! ## Artifact store (`_save_figure` of src/agent/visualization_tools.py)

The filesystem is a list of previously written absolute paths; a write
to an existing path overwrites in place (one file per path). -/

def writeFile (p : List Char) (fs : List (List Char)) : List (List Char) :=
  if p ∈ fs then fs else fs ++ [p]

/-- `f"viz_{uuid.uuid4().hex[:8]}.png"`: the random source is modelled as
the stream of characters of `uuid4().hex`. -/
def vizFileName (hex : List Char) : List Char :=
  'v' :: 'i' :: 'z' :: '_' :: (hex.take 8 ++ pngExt)

/-- `_save_figure`: build the unique filename, join it onto the output
directory, save (write the file), and return the absolute path. -/
def saveFigure (cwd outDir hex : List Char) (fs : List (List Char)) :
    List Char × List (List Char) :=
  let filepath := joinPath outDir (vizFileName hex)
  let path := abspath cwd filepath
  (path, writeFile path fs)

/-- The spec-side pattern `viz_[0-9a-f]{8}\.png`, anchored. -/
def isVizName (name : List Char) : Bool :=
  match stripTok ('v' :: 'i' :: 'z' :: '_' :: []) name with
  | none => false
  | some rest =>
    (rest.take 8).length == 8 && (rest.take 8).all isLowerHex &&
      rest.drop 8 == pngExt

/-! ## Tables (normalized rows) and the renderer set

A Row Record is an ordered association list of column name to scalar;
`dfColumns` is `pandas.DataFrame(records).columns` (union of keys in
order of first appearance); `colVals` is `df[c]` per row, `none` for a
record lacking the key (pandas fills `NaN`). -/

inductive Scalar
  | sInt (n : Int)
  | sStr (s : List Char)
  | sBool (b : Bool)
  | sNull
deriving DecidableEq

abbrev Row := List (List Char × Scalar)

abbrev Table := List Row

def addCols (acc : List (List Char)) (r : Row) : List (List Char) :=
  r.foldl (fun a kv => if kv.1 ∈ a then a else a ++ [kv.1]) acc

def dfColumns (t : Table) : List (List Char) := t.foldl addCols []

def lookupKey (r : Row) (c : List Char) : Option Scalar :=
  match r.find? (fun kv => kv.1 == c) with
  | some kv => some kv.2
  | none => none

def colVals (t : Table) (c : List Char) : List (Option Scalar) :=
  t.map (fun r => lookupKey r c)

/-- Error taxonomy.  `missingColumn` models the `KeyError` pandas raises
for an absent column (and the seaborn error naming an absent axis
column); `dataFormat` the `ValueError` raised by `_parse_data`;
`renderError` any drawing-time failure.  `emptyTable` is the spec's
`EmptyTableError`; no code path in the repository constructs such an
error — the constructor exists only so the spec's claim about it can be
stated. -/
inductive VizError
  | missingColumn (c : List Char)
  | dataFormat (msg : List Char)
  | renderError
  | emptyTable
deriving DecidableEq

/-- Can `f"{v:,.0f}"` format this cell?  Ints and bools (Python bools
are ints) format; a missing cell is pandas `NaN`, which formats as
`nan`; a string raises `ValueError`, `None` in an object column raises
`TypeError`.  (Mixed-dtype coercions of pandas are approximated.) -/
def numFmtOk : Option Scalar → Bool
  | none => true
  | some (.sInt _) => true
  | some (.sBool _) => true
  | some (.sStr _) => false
  | some .sNull => false

/-- `create_bar_chart` (src/agent/visualization_tools.py): resolve
`df[x_column]` then `df[y_column]` (a `KeyError` names the absent
column), run the value-label loop `f"{v:,.0f}"` over the y values, then
`_save_figure`.  The `orientation` argument changes only which axes are
drawn, not column resolution, labelling or saving, so it is not a
parameter of the model.  Returns the call result and the filesystem
afterwards; on error nothing has been written. -/
def createBarChart (cwd outDir : List Char) (t : Table)
    (xCol yCol : List Char) (hex : List Char) (fs : List (List Char)) :
    Except VizError (List Char) × List (List Char) :=
  if xCol ∉ dfColumns t then (.error (.missingColumn xCol), fs)
  else if yCol ∉ dfColumns t then (.error (.missingColumn yCol), fs)
  else if ¬ (colVals t yCol).all numFmtOk then (.error .renderError, fs)
  else
    let p := saveFigure cwd outDir hex fs
    (.ok p.1, p.2)

/-- Python `str.strip()`. -/
def stripWsChars (s : List Char) : List Char :=
  (((s.dropWhile Char.isWhitespace).reverse).dropWhile Char.isWhitespace).reverse

/-- Python `s.split(',')`. -/
def splitComma : List Char → List (List Char)
  | [] => [[]]
  | c :: cs =>
    match splitComma cs with
    | [] => [[]]
    | p :: ps => if c = ',' then [] :: p :: ps else (c :: p) :: ps

/-- `[col.strip() for col in y_columns.split(',')]` of `create_line_chart`. -/
def yColsOf (yCols : List Char) : List (List Char) :=
  (splitComma yCols).map stripWsChars

/-- The series the line-chart loop draws: one per requested y column
that is present in the table (absent ones are skipped by
`if col in df.columns`), each labelled by the column name and sharing
`df[x_column]`. -/
def lineSeries (t : Table) (xCol yCols : List Char) :
    List (List Char × List (Option Scalar) × List (Option Scalar)) :=
  ((yColsOf yCols).filter (fun c => decide (c ∈ dfColumns t))).map
    (fun c => (c, colVals t xCol, colVals t c))

/-- `create_line_chart`: the loop touches `df[x_column]` only when at
least one requested y column is present, so `x_column` is validated only
then; absent y columns are silently skipped.  `ax.plot` accepts
categorical (string) data, so there is no numeric guard. -/
def createLineChart (cwd outDir : List Char) (t : Table)
    (xCol yCols : List Char) (hex : List Char) (fs : List (List Char)) :
    Except VizError (List Char) × List (List Char) :=
  let present := (yColsOf yCols).filter (fun c => decide (c ∈ dfColumns t))
  if present ≠ [] ∧ xCol ∉ dfColumns t then (.error (.missingColumn xCol), fs)
  else
    let p := saveFigure cwd outDir hex fs
    (.ok p.1, p.2)

/-- Can `sns.boxplot` draw this cell on the value axis? -/
def boxValOk : Option Scalar → Bool
  | none => true
  | some (.sInt _) => true
  | some (.sBool _) => true
  | some (.sStr _) => false
  | some .sNull => false

/-- `create_box_plot`: `if category_column and category_column in
df.columns` selects the grouped branch; otherwise — including when a
nonempty grouping column is simply absent from the table — the single
aggregate box is drawn.  In both branches seaborn fails naming
`value_column` when it is absent. -/
def createBoxPlot (cwd outDir : List Char) (t : Table)
    (valueCol categoryCol : List Char) (hex : List Char) (fs : List (List Char)) :
    Except VizError (List Char) × List (List Char) :=
  if categoryCol ≠ [] ∧ categoryCol ∈ dfColumns t then
    if valueCol ∉ dfColumns t then (.error (.missingColumn valueCol), fs)
    else if ¬ (colVals t valueCol).all boxValOk then (.error .renderError, fs)
    else
      let p := saveFigure cwd outDir hex fs
      (.ok p.1, p.2)
  else
    if valueCol ∉ dfColumns t then (.error (.missingColumn valueCol), fs)
    else if ¬ (colVals t valueCol).all boxValOk then (.error .renderError, fs)
    else
      let p := saveFigure cwd outDir hex fs
      (.ok p.1, p.2)

/-! ## The consumer display (src/app.py lines 173-195) -/

inductive DisplayItem
  | mdText (s : List Char)
  | imgFile (path : List Char)
  | warnMissing (filename : List Char)
deriving DecidableEq

/-- The response display logic: collect `viz_matches`; if any, render
the tag-stripped text, then each referenced image — or, when
`os.path.exists` fails, a visible error naming the missing file —
without aborting the rest.  (The history branch at lines 85-103 is the
same shape, with `st.warning` instead of `st.error` and a blank-text
check.)  The function is total: no input crashes the render. -/
def displayResponse (vizDir : List Char) (fs : List (List Char))
    (text : List Char) : List DisplayItem :=
  let ms := vizFindAll text
  if ms.isEmpty then [.mdText text]
  else
    .mdText (vizSub text) ::
      ms.map (fun f =>
        if joinPath vizDir f ∈ fs then .imgFile (joinPath vizDir f)
        else .warnMissing f)

/-! ## Python values and `_parse_data`

`_parse_data` returns lists/dicts unchanged, tries `json.loads` on a
string, falls back to `ast.literal_eval`, and raises `ValueError` with a
100-character preview when both fail; any other value is returned
unchanged.  The two library parsers are modelled on the fragment the
payloads use: strings (with the simple escape set), integers, booleans,
null/None, arrays/lists and objects/dicts, with the dialect differences
(JSON: double quotes, `true/false/null`; Python literals: either quote,
`True/False/None`).  Floats, exponents, `\u` escapes and tuples are
outside the modelled fragment. -/

inductive PyVal
  | pyStr (s : List Char)
  | pyInt (n : Int)
  | pyBool (b : Bool)
  | pyNone
  | pyList (xs : List PyVal)
  | pyDict (kvs : List (List Char × PyVal))

def isWsB (c : Char) : Bool := c == ' ' || c == '\t' || c == '\n' || c == '\r'

def skipWs (cs : List Char) : List Char := cs.dropWhile isWsB

def digitVal (c : Char) : Nat := c.toNat - '0'.toNat

def parseDigits (cs : List Char) : Option (Nat × List Char) :=
  let run := cs.takeWhile Char.isDigit
  if run.isEmpty then none
  else some (run.foldl (fun a c => a * 10 + digitVal c) 0, cs.dropWhile Char.isDigit)

def intTok : List Char → Option (Int × List Char)
  | [] => none
  | c :: r =>
    if c = '-' then (parseDigits r).map (fun p => (-(p.1 : Int), p.2))
    else (parseDigits (c :: r)).map (fun p => ((p.1 : Int), p.2))

/-- Escape characters accepted after a backslash inside a string
literal; `allowSingle` adds the Python-only `\'`. -/
def escChar (allowSingle : Bool) (c : Char) : Option Char :=
  if c = '"' then some '"'
  else if c = '\\' then some '\\'
  else if c = '/' then some '/'
  else if c = 'n' then some '\n'
  else if c = 't' then some '\t'
  else if c = 'r' then some '\r'
  else if c = 'b' then some (Char.ofNat 8)
  else if c = 'f' then some (Char.ofNat 12)
  else if allowSingle && c = '\'' then some '\''
  else none

/-- Body of a string literal up to the closing quote `q`. -/
def strBody (allowSingle : Bool) (q : Char) : List Char → Option (List Char × List Char)
  | [] => none
  | c :: cs =>
    if c = q then some ([], cs)
    else if c = '\\' then
      match cs with
      | [] => none
      | e :: cs2 =>
        match escChar allowSingle e with
        | none => none
        | some ec =>
          match strBody allowSingle q cs2 with
          | none => none
          | some p => some (ec :: p.1, p.2)
    else
      match strBody allowSingle q cs with
      | none => none
      | some p => some (c :: p.1, p.2)

def jsonStrLit (cs : List Char) : Option (List Char × List Char) :=
  match cs with
  | [] => none
  | c :: r => if c = '"' then strBody false '"' r else none

def pyStrLit (cs : List Char) : Option (List Char × List Char) :=
  match cs with
  | [] => none
  | c :: r =>
    if c = '"' then strBody true '"' r
    else if c = '\'' then strBody true '\'' r
    else none

/-- A parsing dialect: how string literals look and how the three
keyword literals are spelled. -/
structure Dialect where
  strLit : List Char → Option (List Char × List Char)
  tTrue : List Char
  tFalse : List Char
  tNone : List Char

def jsonD : Dialect :=
  ⟨jsonStrLit, 't' :: 'r' :: 'u' :: 'e' :: [], 'f' :: 'a' :: 'l' :: 's' :: 'e' :: [],
    'n' :: 'u' :: 'l' :: 'l' :: []⟩

def pyD : Dialect :=
  ⟨pyStrLit, 'T' :: 'r' :: 'u' :: 'e' :: [], 'F' :: 'a' :: 'l' :: 's' :: 'e' :: [],
    'N' :: 'o' :: 'n' :: 'e' :: []⟩

mutual

/-- One value of the dialect, with fuel making the recursion structural. -/
def valP (D : Dialect) : Nat → List Char → Option (PyVal × List Char)
  | 0, _ => none
  | f + 1, cs0 =>
    match skipWs cs0 with
    | [] => none
    | c :: r =>
      if c = '[' then
        let r1 := skipWs r
        if r1.head? = some ']' then some (.pyList [], r1.tail)
        else
          match elemsP D f r1 with
          | none => none
          | some p => some (.pyList p.1, p.2)
      else if c = '{' then
        let r1 := skipWs r
        if r1.head? = some '}' then some (.pyDict [], r1.tail)
        else
          match kvsP D f r1 with
          | none => none
          | some p => some (.pyDict p.1, p.2)
      else
        match D.strLit (c :: r) with
        | some p => some (.pyStr p.1, p.2)
        | none =>
          match stripTok D.tTrue (c :: r) with
          | some r2 => some (.pyBool true, r2)
          | none =>
            match stripTok D.tFalse (c :: r) with
            | some r2 => some (.pyBool false, r2)
            | none =>
              match stripTok D.tNone (c :: r) with
              | some r2 => some (.pyNone, r2)
              | none =>
                match intTok (c :: r) with
                | some p => some (.pyInt p.1, p.2)
                | none => none

/-- One or more comma-separated array elements up to the closing `]`. -/
def elemsP (D : Dialect) : Nat → List Char → Option (List PyVal × List Char)
  | 0, _ => none
  | f + 1, cs =>
    match valP D f cs with
    | none => none
    | some (v, r) =>
      let r1 := skipWs r
      if r1.head? = some ',' then
        match elemsP D f r1.tail with
        | none => none
        | some p => some (v :: p.1, p.2)
      else if r1.head? = some ']' then some ([v], r1.tail)
      else none

/-- One or more `key: value` object entries up to the closing `}`. -/
def kvsP (D : Dialect) : Nat → List Char → Option (List (List Char × PyVal) × List Char)
  | 0, _ => none
  | f + 1, cs =>
    match D.strLit (skipWs cs) with
    | none => none
    | some (k, r) =>
      let r1 := skipWs r
      if r1.head? = some ':' then
        match valP D f r1.tail with
        | none => none
        | some (v, r3) =>
          let r4 := skipWs r3
          if r4.head? = some ',' then
            match kvsP D f r4.tail with
            | none => none
            | some p => some ((k, v) :: p.1, p.2)
          else if r4.head? = some '}' then some ([(k, v)], r4.tail)
          else none
      else none

end

/-- `json.loads`: parse one value, allow only trailing whitespace. -/
def jsonLoads (s : List Char) : Option PyVal :=
  match valP jsonD (s.length + 1) s with
  | none => none
  | some (v, r) => if (skipWs r).isEmpty then some v else none

/-- `ast.literal_eval` on the literal fragment. -/
def literalEval (s : List Char) : Option PyVal :=
  match valP pyD (s.length + 1) s with
  | none => none
  | some (v, r) => if (skipWs r).isEmpty then some v else none

def errPrefix : List Char :=
  ("Could not parse data. Expected JSON string or list of dicts. Got: ").toList

/-- `_parse_data` of src/agent/visualization_tools.py. -/
def parseData : PyVal → Except VizError PyVal
  | .pyList xs => .ok (.pyList xs)
  | .pyDict kvs => .ok (.pyDict kvs)
  | .pyStr s =>
    match jsonLoads s with
    | some v => .ok v
    | none =>
      match literalEval s with
      | some v => .ok v
      | none => .error (.dataFormat (errPrefix ++ s.take 100))
  | v => .ok v

/-! ## Reference serializations of a table

These are spec-side encoders used to state the C6 round-trip: the same
logical rows written as the native structure, as a strict JSON string,
and as a Python-literal string.  They are not part of the repository. -/

structure SerDialect where
  quote : Char
  tTrue : List Char
  tFalse : List Char
  tNone : List Char

def jsonSD : SerDialect :=
  ⟨'"', 't' :: 'r' :: 'u' :: 'e' :: [], 'f' :: 'a' :: 'l' :: 's' :: 'e' :: [],
    'n' :: 'u' :: 'l' :: 'l' :: []⟩

def pySD : SerDialect :=
  ⟨'\'', 'T' :: 'r' :: 'u' :: 'e' :: [], 'F' :: 'a' :: 'l' :: 's' :: 'e' :: [],
    'N' :: 'o' :: 'n' :: 'e' :: []⟩

def digitChar (d : Nat) : Char := Char.ofNat (48 + d)

/-- Decimal digits of `n`, most significant first, prepended to `acc`;
any fuel `≥ n` is enough. -/
def natSerF : Nat → Nat → List Char → List Char
  | 0, n, acc => digitChar (n % 10) :: acc
  | f + 1, n, acc =>
    if n < 10 then digitChar n :: acc
    else natSerF f (n / 10) (digitChar (n % 10) :: acc)

def natSer (n : Nat) : List Char := natSerF n n []

def intSer : Int → List Char
  | .ofNat n => natSer n
  | .negSucc m => '-' :: natSer (m + 1)

def scalarSer (S : SerDialect) : Scalar → List Char
  | .sInt n => intSer n
  | .sStr s => S.quote :: s ++ [S.quote]
  | .sBool true => S.tTrue
  | .sBool false => S.tFalse
  | .sNull => S.tNone

def kvSer (S : SerDialect) (kv : List Char × Scalar) : List Char :=
  S.quote :: kv.1 ++ S.quote :: ':' :: scalarSer S kv.2

def rowSerAux (S : SerDialect) : Row → List Char
  | [] => []
  | [kv] => kvSer S kv
  | kv :: kvs => kvSer S kv ++ ',' :: rowSerAux S kvs

def rowSer (S : SerDialect) (r : Row) : List Char := '{' :: rowSerAux S r ++ ['}']

def tableSerAux (S : SerDialect) : Table → List Char
  | [] => []
  | [r] => rowSer S r
  | r :: rs => rowSer S r ++ ',' :: tableSerAux S rs

def tableSer (S : SerDialect) (t : Table) : List Char :=
  '[' :: tableSerAux S t ++ [']']

/-- The table as a strict JSON text. -/
def tableJson (t : Table) : List Char := tableSer jsonSD t

/-- The table as a Python-literal text (single quotes, `True/False/None`). -/
def tablePy (t : Table) : List Char := tableSer pySD t

/-- The table as the native structure (`list` of `dict`s). -/
def scalarVal : Scalar → PyVal
  | .sInt n => .pyInt n
  | .sStr s => .pyStr s
  | .sBool b => .pyBool b
  | .sNull => .pyNone

def rowVal (r : Row) : PyVal := .pyDict (r.map (fun kv => (kv.1, scalarVal kv.2)))

def tableVal (t : Table) : PyVal := .pyList (t.map rowVal)

/-- Characters that need no escaping and cannot be confused with any
delimiter of either text dialect. -/
def plainChar (c : Char) : Bool := c.isAlphanum || c == ' ' || c == '_' || c == '-'

def plainScalar : Scalar → Bool
  | .sStr s => s.all plainChar
  | _ => true

def plainRow (r : Row) : Bool :=
  r.all (fun kv => kv.1.all plainChar && plainScalar kv.2)

def plainTable (t : Table) : Bool := t.all plainRow

/-- The facts connecting a serializer dialect with the parser dialect
that reads its output; proved below for (JSON writer, `json.loads`) and
(Python-repr writer, `ast.literal_eval`). -/
structure Compat (S : SerDialect) (D : Dialect) : Prop where
  qws : isWsB S.quote = false
  qne_rbrace : S.quote ≠ '}'
  key_parse : ∀ (k rest : List Char), (∀ c ∈ k, plainChar c = true) →
    D.strLit (S.quote :: (k ++ S.quote :: rest)) = some (k, rest)
  valP_str : ∀ (f : Nat) (s rest : List Char), (∀ c ∈ s, plainChar c = true) →
    valP D (f + 1) (S.quote :: (s ++ S.quote :: rest)) = some (.pyStr s, rest)
  valP_true : ∀ (f : Nat) (rest : List Char),
    valP D (f + 1) (S.tTrue ++ rest) = some (.pyBool true, rest)
  valP_false : ∀ (f : Nat) (rest : List Char),
    valP D (f + 1) (S.tFalse ++ rest) = some (.pyBool false, rest)
  valP_none : ∀ (f : Nat) (rest : List Char),
    valP D (f + 1) (S.tNone ++ rest) = some (.pyNone, rest)
  valP_int : ∀ (f : Nat) (i : Int) (rest : List Char),
    (∀ c, rest.head? = some c → c.isDigit = false) →
    valP D (f + 1) (intSer i ++ rest) = some (.pyInt i, rest)

def rowEntries (r : Row) : List (List Char × PyVal) :=
  r.map (fun kv => (kv.1, scalarVal kv.2))

/-- Fuel needed by the parser for a serialized table. -/
def szRows : Table → Nat
  | [] => 0
  | r :: rs => r.length + 3 + szRows rs

/-- The word-character stem of the generated filename. -/
def vizStem (hex : List Char) : List Char := 'v' :: 'i' :: 'z' :: '_' :: hex.take 8

/-- The number of files in the store at a given path. -/
def countOcc (p : List Char) (fs : List (List Char)) : Nat :=
  (fs.filter (fun q => q = p)).length

/-- Shape discriminator used by `_parse_data`'s isinstance checks. -/
def isStrListDict : PyVal → Bool
  | .pyStr _ => true
  | .pyList _ => true
  | .pyDict _ => true
  | _ => false

/-! ## Basic scanner lemmas -/

theorem takeWord_append_not_word (a : Char) (ha : ¬ isWordChar a)
    (cs Y : List Char) :
    takeWord (cs ++ a :: Y) = ((takeWord cs).1, (takeWord cs).2 ++ a :: Y) := by
  induction cs with
  | nil => simp [takeWord, ha]
  | cons c cs ih =>
    by_cases hc : isWordChar c
    · simp [takeWord, hc, ih]
    · simp [takeWord, hc]

theorem takeWord_concat (cs : List Char) :
    (takeWord cs).1 ++ (takeWord cs).2 = cs := by
  induction cs with
  | nil => simp [takeWord]
  | cons c cs ih =>
    by_cases hc : isWordChar c
    · simp [takeWord, hc, ih]
    · simp [takeWord, hc]

theorem takeWord_all_word (cs : List Char) :
    ∀ c ∈ (takeWord cs).1, isWordChar c := by
  induction cs with
  | nil => simp [takeWord]
  | cons c cs ih =>
    by_cases hc : isWordChar c
    · simp only [takeWord, hc, if_pos]
      intro x hx
      rcases List.mem_cons.mp hx with h | h
      · exact h ▸ hc
      · exact ih x h
    · simp [takeWord, hc]

theorem takeWord_of_all_word (cs : List Char) (h : ∀ c ∈ cs, isWordChar c) :
    takeWord cs = (cs, []) := by
  induction cs with
  | nil => simp [takeWord]
  | cons c cs ih =>
    have hc : isWordChar c := h c (List.mem_cons_self c cs)
    have := ih (fun x hx => h x (List.mem_cons_of_mem c hx))
    simp [takeWord, hc, this]

theorem stripTok_self_append (tok r : List Char) :
    stripTok tok (tok ++ r) = some r := by
  induction tok with
  | nil => simp [stripTok]
  | cons t ts ih => simp [stripTok, ih]

theorem stripTok_some_iff (tok cs r : List Char) :
    stripTok tok cs = some r ↔ cs = tok ++ r := by
  constructor
  · intro h
    induction tok generalizing cs with
    | nil => simpa [stripTok] using h
    | cons t ts ih =>
      cases cs with
      | nil => simp [stripTok] at h
      | cons c cs =>
        by_cases hc : c = t
        · subst hc
          simp only [stripTok, if_pos rfl] at h
          simpa using ih cs h
        · simp [stripTok, hc] at h
  · intro h; subst h; exact stripTok_self_append tok r

theorem stripTok_append_lbrack (tok : List Char) :
    ∀ (cs Y : List Char), '[' ∉ tok.drop 1 →
      (cs ≠ [] ∨ tok.head? ≠ some '[') →
      stripTok tok (cs ++ '[' :: Y) =
        (stripTok tok cs).map (fun r => r ++ '[' :: Y) := by
  induction tok with
  | nil => intro cs Y _ _; simp [stripTok]
  | cons t ts ih =>
    intro cs Y h1 h2
    have hts : '[' ∉ ts := by simpa using h1
    cases cs with
    | nil =>
      have ht : t ≠ '[' := by
        rcases h2 with h | h
        · exact absurd rfl h
        · intro he; exact h (by simp [he])
      simp only [List.nil_append, stripTok]
      rw [if_neg (fun he => ht he.symm)]
      simp [stripTok]
    | cons c cs =>
      by_cases hc : c = t
      · subst hc
        simp only [List.cons_append, stripTok, if_pos rfl]
        have h2' : cs ≠ [] ∨ ts.head? ≠ some '[' := by
          right
          cases ts with
          | nil => simp
          | cons u us =>
            simp only [List.head?_cons, ne_eq, Option.some.injEq]
            intro hu
            exact hts (by simp [hu])
        exact ih cs Y (by
          intro hm
          exact hts (List.mem_of_mem_drop hm)) h2'
      · simp [stripTok, hc]

theorem tryTag_ne_lbrack {c : Char} (h : c ≠ '[') (cs : List Char) :
    tryTag (c :: cs) = none := by
  unfold tryTag
  simp only [tagOpen, stripTok]
  rw [if_neg h]

theorem tryTag_shape {cs nm r : List Char} (h : tryTag cs = some (nm, r)) :
    ∃ w, nm = w ++ pngExt ∧ w ≠ [] ∧ (∀ c ∈ w, isWordChar c) ∧
      cs = tagOpen ++ w ++ tagClose ++ r := by
  unfold tryTag at h
  cases h0 : stripTok tagOpen cs with
  | none => rw [h0] at h; exact absurd h (by simp)
  | some r1 =>
    rw [h0] at h
    simp only at h
    cases hp : takeWord r1 with
    | mk w r2 =>
      rw [hp] at h
      simp only at h
      by_cases he : w.isEmpty
      · rw [if_pos he] at h; exact absurd h (by simp)
      · rw [if_neg he] at h
        cases h3 : stripTok tagClose r2 with
        | none => rw [h3] at h; exact absurd h (by simp)
        | some r3 =>
          rw [h3] at h
          simp only [Option.some.injEq, Prod.mk.injEq] at h
          obtain ⟨hnm, hr⟩ := h
          have hcs : cs = tagOpen ++ r1 := (stripTok_some_iff _ _ _).mp h0
          have hr1 : w ++ r2 = r1 := by
            have := takeWord_concat r1
            rw [hp] at this; exact this
          have hr2 : r2 = tagClose ++ r3 := (stripTok_some_iff _ _ _).mp h3
          have hww : ∀ c ∈ w, isWordChar c := by
            have := takeWord_all_word r1
            rw [hp] at this; exact this
          refine ⟨w, hnm.symm, ?_, hww, ?_⟩
          · intro hw; rw [hw] at he; simp at he
          · rw [hcs, ← hr1, hr2, hr]
            simp

theorem tryTag_length {cs nm r : List Char} (h : tryTag cs = some (nm, r)) :
    r.length + 10 ≤ cs.length := by
  obtain ⟨w, _, hw, _, hcs⟩ := tryTag_shape h
  rw [hcs]
  have : 1 ≤ w.length := by
    cases w with
    | nil => exact absurd rfl hw
    | cons a as => simp
  simp only [List.length_append, tagOpen, tagClose]
  simp only [List.length_cons, List.length_nil]
  omega

theorem tryTag_append_lbrack {cs : List Char} (hcs : cs ≠ []) (Y : List Char) :
    tryTag (cs ++ '[' :: Y) =
      (tryTag cs).map (fun p => (p.1, p.2 ++ '[' :: Y)) := by
  unfold tryTag
  rw [stripTok_append_lbrack tagOpen cs Y (by decide) (Or.inl hcs)]
  cases h0 : stripTok tagOpen cs with
  | none => simp
  | some r =>
    simp only [Option.map_some']
    rw [takeWord_append_not_word '[' (by decide) r Y]
    cases hp : takeWord r with
    | mk w r2 =>
      simp only
      by_cases he : w.isEmpty
      · simp [he]
      · rw [if_neg he, if_neg he]
        rw [stripTok_append_lbrack tagClose r2 Y (by decide) (Or.inr (by decide))]
        cases h3 : stripTok tagClose r2 with
        | none => simp
        | some r3 => simp

theorem tryTag_valid {w : List Char} (hw : w ≠ [])
    (hword : ∀ c ∈ w, isWordChar c) (post : List Char) :
    tryTag (tagOpen ++ w ++ pngExt ++ ']' :: post) = some (w ++ pngExt, post) := by
  unfold tryTag
  have h1 : tagOpen ++ w ++ pngExt ++ ']' :: post =
      tagOpen ++ (w ++ (tagClose ++ post)) := by
    simp [tagClose, pngExt]
  rw [h1, stripTok_self_append]
  simp only
  have h2 : w ++ (tagClose ++ post) = w ++ '.' :: ('p' :: 'n' :: 'g' :: ']' :: post) := by
    simp [tagClose]
  rw [h2, takeWord_append_not_word '.' (by decide) w _, takeWord_of_all_word w hword]
  simp only [List.nil_append]
  rw [if_neg (by simpa using hw)]
  have h3 : ('.' :: 'p' :: 'n' :: 'g' :: ']' :: post) = tagClose ++ post := by
    simp [tagClose]
  rw [h3, stripTok_self_append]

theorem append_rbrack_inj : ∀ (a b x y : List Char), ']' ∉ a → ']' ∉ b →
    a ++ ']' :: x = b ++ ']' :: y → a = b ∧ x = y := by
  intro a
  induction a with
  | nil =>
    intro b x y _ hb h
    cases b with
    | nil => simpa using h
    | cons d b' =>
      simp only [List.nil_append, List.cons_append, List.cons.injEq] at h
      exact absurd (h.1 ▸ List.mem_cons_self d b') hb
  | cons c a' ih =>
    intro b x y ha hb h
    cases b with
    | nil =>
      simp only [List.cons_append, List.nil_append, List.cons.injEq] at h
      exact absurd (h.1 ▸ List.mem_cons_self c a') ha
    | cons d b' =>
      simp only [List.cons_append, List.cons.injEq] at h
      obtain ⟨hcd, hrest⟩ := h
      have := ih b' x y (fun hm => ha (List.mem_cons_of_mem c hm))
        (fun hm => hb (List.mem_cons_of_mem d hm)) hrest
      exact ⟨by rw [hcd, this.1], this.2⟩

theorem tryTag_invalid {name : List Char} (hval : isValidFnameB name = false)
    (hrb : ']' ∉ name) (post : List Char) :
    tryTag (tagOpen ++ name ++ ']' :: post) = none := by
  have h0 : tagOpen ++ name ++ ']' :: post = tagOpen ++ (name ++ ']' :: post) := by simp
  unfold tryTag
  rw [h0, stripTok_self_append]
  simp only
  rw [takeWord_append_not_word ']' (by decide) name post]
  cases hp : takeWord name with
  | mk w nr =>
    simp only
    by_cases he : w.isEmpty
    · rw [if_pos he]
    · rw [if_neg he]
      cases h3 : stripTok tagClose (nr ++ ']' :: post) with
      | none => rfl
      | some r3 =>
        exfalso
        have hdec : nr ++ ']' :: post = tagClose ++ r3 := (stripTok_some_iff _ _ _).mp h3
        have hdec2 : nr ++ ']' :: post = pngExt ++ ']' :: r3 := by
          rw [hdec]; simp [tagClose, pngExt]
        have hnrmem : ']' ∉ nr := by
          intro hm
          apply hrb
          have := takeWord_concat name
          rw [hp] at this
          rw [← this]
          exact List.mem_append_right w hm
        have := append_rbrack_inj nr pngExt post r3 hnrmem (by decide) hdec2
        -- name = w ++ pngExt with w a nonempty word run: the name was valid
        have hname : name = w ++ pngExt := by
          have hc := takeWord_concat name
          rw [hp] at hc
          rw [← hc, this.1]
        have hww : ∀ c ∈ w, isWordChar c := by
          have := takeWord_all_word name
          rw [hp] at this; exact this
        have : isValidFnameB name = true := by
          unfold isValidFnameB
          rw [hname]
          simp only [pngExt]
          rw [takeWord_append_not_word '.' (by decide) w _,
            takeWord_of_all_word w hww]
          simp [he, pngExt]
        rw [this] at hval
        exact absurd hval (by simp)

theorem vizScanF_nil (f : Nat) : vizScanF f [] = ([], []) := by
  cases f <;> simp [vizScanF]

theorem vizScanF_cons (f : Nat) (c : Char) (rest : List Char) :
    vizScanF (f + 1) (c :: rest) =
      match tryTag (c :: rest) with
      | some (name, r) =>
        let p := vizScanF f r
        (name :: p.1, p.2)
      | none =>
        let p := vizScanF f rest
        (p.1, c :: p.2) := rfl

theorem vizScanF_canon : ∀ (n : Nat) (cs : List Char), cs.length ≤ n →
    ∀ (f : Nat), cs.length ≤ f → vizScanF f cs = vizScanF cs.length cs := by
  intro n
  induction n with
  | zero =>
    intro cs hcs f _
    have : cs = [] := List.eq_nil_of_length_eq_zero (Nat.le_zero.mp hcs)
    subst this
    simp [vizScanF_nil]
  | succ n ih =>
    intro cs hcs f hf
    cases cs with
    | nil => simp [vizScanF_nil]
    | cons c rest =>
      have hlen : rest.length + 1 ≤ f := by simpa using hf
      obtain ⟨g, rfl⟩ : ∃ g, f = g + 1 := ⟨f - 1, by omega⟩
      rw [vizScanF_cons, show (c :: rest).length = rest.length + 1 from rfl,
        vizScanF_cons]
      cases ht : tryTag (c :: rest) with
      | some p =>
        obtain ⟨name, r⟩ := p
        have hr : r.length + 10 ≤ rest.length + 1 := by
          simpa using tryTag_length ht
        have hcs' : rest.length + 1 ≤ n + 1 := by simpa using hcs
        simp only
        rw [ih r (by omega) g (by omega), ih r (by omega) rest.length (by omega)]
      | none =>
        simp only
        rw [ih rest (by simpa using hcs) g (by omega),
          ih rest (by simpa using hcs) rest.length (by omega)]

theorem vizScanF_eq_of_le {f : Nat} {cs : List Char} (h : cs.length ≤ f) :
    vizScanF f cs = (vizFindAll cs, vizSub cs) := by
  rw [vizScanF_canon cs.length cs le_rfl f h]
  rfl

/-- Scanning a region free of `[` finds nothing there and keeps its text. -/
theorem vizScanF_no_lbrack : ∀ (s1 s2 : List Char), (∀ c ∈ s1, c ≠ '[') →
    ∀ f, (s1 ++ s2).length ≤ f →
      vizScanF f (s1 ++ s2) = (vizFindAll s2, s1 ++ vizSub s2) := by
  intro s1
  induction s1 with
  | nil =>
    intro s2 _ f hf
    simpa using vizScanF_eq_of_le (by simpa using hf)
  | cons c s1 ih =>
    intro s2 hm f hf
    have hc : c ≠ '[' := hm c (List.mem_cons_self c s1)
    obtain ⟨g, rfl⟩ : ∃ g, f = g + 1 := ⟨f - 1, by simp at hf; omega⟩
    rw [List.cons_append, vizScanF_cons, tryTag_ne_lbrack hc]
    simp only
    rw [ih s2 (fun x hx => hm x (List.mem_cons_of_mem c hx)) g
      (by simp at hf ⊢; omega)]
    simp

/-- Every filename the consumer collects has the restricted shape
(word characters plus `.png`): soundness half of the injection guard. -/
theorem vizScanF_sound : ∀ (f : Nat) (cs : List Char),
    ∀ nm ∈ (vizScanF f cs).1, isValidFnameB nm = true := by
  intro f
  induction f with
  | zero => intro cs nm h; simp [vizScanF] at h
  | succ f ih =>
    intro cs nm h
    cases cs with
    | nil => simp [vizScanF_nil] at h
    | cons c rest =>
      rw [vizScanF_cons] at h
      cases ht : tryTag (c :: rest) with
      | some p =>
        obtain ⟨name, r⟩ := p
        rw [ht] at h
        simp only [List.mem_cons] at h
        rcases h with h | h
        · subst h
          obtain ⟨w, hnm, hw, hww, _⟩ := tryTag_shape ht
          subst hnm
          unfold isValidFnameB
          simp only [pngExt]
          rw [takeWord_append_not_word '.' (by decide) w _,
            takeWord_of_all_word w hww]
          simp [pngExt]
          simpa using hw
        · exact ih r nm h
      | none =>
        rw [ht] at h
        exact ih rest nm h

/-- A text with no matches is left unchanged by the stripping. -/
theorem vizSub_of_no_match : ∀ (f : Nat) (cs : List Char), cs.length ≤ f →
    (vizScanF f cs).1 = [] → (vizScanF f cs).2 = cs := by
  intro f
  induction f with
  | zero =>
    intro cs hl _
    have : cs = [] := List.eq_nil_of_length_eq_zero (Nat.le_zero.mp hl)
    subst this; rfl
  | succ f ih =>
    intro cs hl hnil
    cases cs with
    | nil => simp [vizScanF_nil]
    | cons c rest =>
      rw [vizScanF_cons] at hnil ⊢
      cases ht : tryTag (c :: rest) with
      | some p =>
        obtain ⟨name, r⟩ := p
        rw [ht] at hnil
        simp at hnil
      | none =>
        rw [ht] at hnil
        simp only at hnil ⊢
        rw [ih rest (by simp at hl; omega) hnil]

theorem vizFindAll_cons_none {c : Char} {cs : List Char}
    (h : tryTag (c :: cs) = none) :
    vizFindAll (c :: cs) = vizFindAll cs ∧ vizSub (c :: cs) = c :: vizSub cs := by
  unfold vizFindAll vizSub
  rw [show (c :: cs).length = cs.length + 1 from rfl, vizScanF_cons, h]
  exact ⟨rfl, rfl⟩

theorem vizFindAll_cons_some {c : Char} {cs nm r : List Char}
    (h : tryTag (c :: cs) = some (nm, r)) :
    vizFindAll (c :: cs) = nm :: vizFindAll r ∧ vizSub (c :: cs) = vizSub r := by
  have hr : r.length + 10 ≤ cs.length + 1 := by simpa using tryTag_length h
  unfold vizFindAll vizSub
  rw [show (c :: cs).length = cs.length + 1 from rfl, vizScanF_cons, h]
  simp only
  rw [vizScanF_eq_of_le (show r.length ≤ cs.length by omega)]
  exact ⟨rfl, rfl⟩

/-- No match of the pattern can cross from a prefix into a region that
starts with `[`: scanning distributes over such a split.  This encodes
that a match contains `[` only as its first character. -/
theorem vizScan_prefix : ∀ (n : Nat) (pre Z : List Char), pre.length ≤ n →
    vizFindAll (pre ++ '[' :: Z) = vizFindAll pre ++ vizFindAll ('[' :: Z) ∧
    vizSub (pre ++ '[' :: Z) = vizSub pre ++ vizSub ('[' :: Z) := by
  intro n
  induction n with
  | zero =>
    intro pre Z hl
    have : pre = [] := List.eq_nil_of_length_eq_zero (Nat.le_zero.mp hl)
    subst this
    simp [vizFindAll, vizSub, vizScanF_nil]
  | succ n ih =>
    intro pre Z hl
    cases pre with
    | nil => simp [vizFindAll, vizSub, vizScanF_nil]
    | cons c pre' =>
      have htry := @tryTag_append_lbrack (c :: pre') (by simp) Z
      rw [List.cons_append] at htry
      cases h2 : tryTag (c :: pre') with
      | none =>
        rw [h2] at htry
        simp only [Option.map_none'] at htry
        obtain ⟨hf1, hs1⟩ := vizFindAll_cons_none htry
        obtain ⟨hf2, hs2⟩ := vizFindAll_cons_none h2
        obtain ⟨ihf, ihs⟩ := ih pre' Z (by simp at hl; omega)
        rw [List.cons_append, hf1, hs1, hf2, hs2, ihf, ihs]
        simp
      | some p =>
        obtain ⟨nm, r⟩ := p
        rw [h2] at htry
        simp only [Option.map_some'] at htry
        obtain ⟨hf1, hs1⟩ := vizFindAll_cons_some htry
        obtain ⟨hf2, hs2⟩ := vizFindAll_cons_some h2
        have hrlen : r.length + 10 ≤ pre'.length + 1 := by
          simpa using tryTag_length h2
        obtain ⟨ihf, ihs⟩ := ih r Z (by simp at hl; omega)
        rw [List.cons_append, hf1, hs1, hf2, hs2, ihf, ihs]
        simp

theorem vizScan_tag_valid (w post : List Char) (hw : w ≠ [])
    (hww : ∀ c ∈ w, isWordChar c) :
    vizFindAll (vizTag (w ++ pngExt) ++ post) = (w ++ pngExt) :: vizFindAll post ∧
    vizSub (vizTag (w ++ pngExt) ++ post) = vizSub post := by
  have hv := tryTag_valid hw hww post
  have hshape : tagOpen ++ w ++ pngExt ++ ']' :: post =
      '[' :: ('V' :: 'I' :: 'Z' :: ':' :: (w ++ pngExt ++ ']' :: post)) := by
    simp [tagOpen]
  rw [hshape] at hv
  have h2 := vizFindAll_cons_some hv
  have h3 : vizTag (w ++ pngExt) ++ post =
      '[' :: ('V' :: 'I' :: 'Z' :: ':' :: (w ++ pngExt ++ ']' :: post)) := by
    simp [vizTag, tagOpen]
  rw [h3]
  exact h2

theorem vizScan_tag_invalid (name post : List Char)
    (hval : isValidFnameB name = false) (hlb : '[' ∉ name) (hrb : ']' ∉ name) :
    vizFindAll (vizTag name ++ post) = vizFindAll post ∧
    vizSub (vizTag name ++ post) = vizTag name ++ vizSub post := by
  have hv := tryTag_invalid hval hrb post
  have hshape : tagOpen ++ name ++ ']' :: post =
      '[' :: ('V' :: 'I' :: 'Z' :: ':' :: (name ++ ']' :: post)) := by
    simp [tagOpen]
  rw [hshape] at hv
  have h2 := vizFindAll_cons_none hv
  have hibody : 'V' :: 'I' :: 'Z' :: ':' :: (name ++ ']' :: post) =
      ('V' :: 'I' :: 'Z' :: ':' :: (name ++ [']'])) ++ post := by simp
  have hnb : ∀ c ∈ ('V' :: 'I' :: 'Z' :: ':' :: (name ++ [']'])), c ≠ '[' := by
    intro c hc he
    subst he
    rcases List.mem_cons.mp hc with h | hc2
    · exact absurd h (by decide)
    rcases List.mem_cons.mp hc2 with h | hc3
    · exact absurd h (by decide)
    rcases List.mem_cons.mp hc3 with h | hc4
    · exact absurd h (by decide)
    rcases List.mem_cons.mp hc4 with h | hc5
    · exact absurd h (by decide)
    rcases List.mem_append.mp hc5 with h | h
    · exact hlb h
    · exact absurd (List.mem_singleton.mp h) (by decide)
  have hwalk := vizScanF_no_lbrack ('V' :: 'I' :: 'Z' :: ':' :: (name ++ [']']))
    post hnb (('V' :: 'I' :: 'Z' :: ':' :: (name ++ [']'])) ++ post).length le_rfl
  have hinner : vizFindAll ('V' :: 'I' :: 'Z' :: ':' :: (name ++ ']' :: post))
      = vizFindAll post ∧
      vizSub ('V' :: 'I' :: 'Z' :: ':' :: (name ++ ']' :: post))
      = ('V' :: 'I' :: 'Z' :: ':' :: (name ++ [']'])) ++ vizSub post := by
    rw [hibody]
    unfold vizFindAll vizSub
    rw [hwalk]
    exact ⟨rfl, rfl⟩
  have h3 : vizTag name ++ post =
      '[' :: ('V' :: 'I' :: 'Z' :: ':' :: (name ++ ']' :: post)) := by
    simp [vizTag, tagOpen]
  constructor
  · rw [h3, h2.1, hinner.1]
  · rw [h3, h2.2, hinner.2]
    simp [vizTag, tagOpen]

/-- Full decomposition for a well-formed embedded reference: the scanner
collects exactly the tag's filename between whatever the surrounding text
yields, and stripping removes exactly the tag. -/
theorem vizScan_decomp_valid (pre w post : List Char) (hw : w ≠ [])
    (hww : ∀ c ∈ w, isWordChar c) :
    vizFindAll (pre ++ (vizTag (w ++ pngExt) ++ post))
        = vizFindAll pre ++ (w ++ pngExt) :: vizFindAll post ∧
    vizSub (pre ++ (vizTag (w ++ pngExt) ++ post)) = vizSub pre ++ vizSub post := by
  have htag := vizScan_tag_valid w post hw hww
  have hsh : vizTag (w ++ pngExt) ++ post =
      '[' :: ('V' :: 'I' :: 'Z' :: ':' :: (w ++ pngExt ++ ']' :: post)) := by
    simp [vizTag, tagOpen]
  have hp := vizScan_prefix pre.length pre
    ('V' :: 'I' :: 'Z' :: ':' :: (w ++ pngExt ++ ']' :: post)) le_rfl
  rw [← hsh] at hp
  exact ⟨by rw [hp.1, htag.1], by rw [hp.2, htag.2]⟩

/-- Full decomposition for a malformed tag (bracket-free name): the
scanner matches nothing in it and leaves it verbatim in the text. -/
theorem vizScan_decomp_invalid (pre name post : List Char)
    (hval : isValidFnameB name = false) (hlb : '[' ∉ name) (hrb : ']' ∉ name) :
    vizFindAll (pre ++ (vizTag name ++ post)) = vizFindAll pre ++ vizFindAll post ∧
    vizSub (pre ++ (vizTag name ++ post)) = vizSub pre ++ (vizTag name ++ vizSub post) := by
  have htag := vizScan_tag_invalid name post hval hlb hrb
  have hsh : vizTag name ++ post =
      '[' :: ('V' :: 'I' :: 'Z' :: ':' :: (name ++ ']' :: post)) := by
    simp [vizTag, tagOpen]
  have hp := vizScan_prefix pre.length pre
    ('V' :: 'I' :: 'Z' :: ':' :: (name ++ ']' :: post)) le_rfl
  rw [← hsh] at hp
  exact ⟨by rw [hp.1, htag.1], by rw [hp.2, htag.2]⟩

/-! ## Path lemmas -/

theorem takeWhile_append_stop {p : Char → Bool} {a : List Char} {x : Char}
    (ha : ∀ c ∈ a, p c = true) (hx : p x = false) (b : List Char) :
    List.takeWhile p (a ++ x :: b) = a := by
  induction a with
  | nil => simp [List.takeWhile, hx]
  | cons c a ih =>
    have hc : p c = true := ha c (List.mem_cons_self c a)
    simp only [List.cons_append, List.takeWhile, hc]
    simp only [List.append_eq]
    rw [ih (fun y hy => ha y (List.mem_cons_of_mem c hy))]

theorem baseName_append {f : List Char} (hf : '/' ∉ f) (xs : List Char) :
    baseName (xs ++ '/' :: f) = f := by
  unfold baseName
  rw [show xs ++ '/' :: f = (xs ++ ['/']) ++ f by simp]
  rw [List.reverse_append]
  rw [show (xs ++ ['/']).reverse = '/' :: xs.reverse by simp]
  rw [@takeWhile_append_stop _ f.reverse '/'
    (fun c hc => by
      simp only [List.mem_reverse] at hc
      simp only [bne_iff_ne, ne_eq, decide_eq_true_eq]
      intro he; exact hf (he ▸ hc)) (by simp) xs.reverse]
  simp

theorem splitSlash_ne_nil (cs : List Char) : splitSlash cs ≠ [] := by
  cases cs with
  | nil => simp [splitSlash]
  | cons c cs =>
    unfold splitSlash
    cases splitSlash cs with
    | nil => simp
    | cons p ps =>
      by_cases hc : c = '/' <;> simp [hc]

theorem splitSlash_append (xs ys : List Char) :
    splitSlash (xs ++ '/' :: ys) = splitSlash xs ++ splitSlash ys := by
  induction xs with
  | nil =>
    simp only [List.nil_append, splitSlash]
    cases h : splitSlash ys with
    | nil => exact absurd h (splitSlash_ne_nil ys)
    | cons p ps => simp [splitSlash]
  | cons c xs ih =>
    have h1 : splitSlash (c :: (xs ++ '/' :: ys)) =
        match splitSlash (xs ++ '/' :: ys) with
        | [] => [[]]
        | p :: ps => if c = '/' then [] :: p :: ps else (c :: p) :: ps := rfl
    have h2 : splitSlash (c :: xs) =
        match splitSlash xs with
        | [] => [[]]
        | p :: ps => if c = '/' then [] :: p :: ps else (c :: p) :: ps := rfl
    rw [List.cons_append, h1, h2, ih]
    cases h : splitSlash xs with
    | nil => exact absurd h (splitSlash_ne_nil xs)
    | cons p ps =>
      by_cases hc : c = '/' <;> simp [hc]

theorem splitSlash_no_slash {f : List Char} (hf : '/' ∉ f) :
    splitSlash f = [f] := by
  induction f with
  | nil => simp [splitSlash]
  | cons c cs ih =>
    have hc : c ≠ '/' := fun he => hf (he ▸ List.mem_cons_self c cs)
    unfold splitSlash
    rw [ih (fun hm => hf (List.mem_cons_of_mem c hm))]
    simp [hc]

theorem resolveParts_push : ∀ (ps : List (List Char)) (stack : List (List Char))
    (f : List Char), f ≠ [] → f ≠ ['.'] → f ≠ ['.', '.'] →
    resolveParts stack (ps ++ [f]) = resolveParts stack ps ++ [f] := by
  intro ps
  induction ps with
  | nil =>
    intro stack f h0 h1 h2
    simp only [List.nil_append, resolveParts]
    rw [if_neg (by simp [h0, h1]), if_neg h2]
    simp [resolveParts]
  | cons p ps ih =>
    intro stack f h0 h1 h2
    simp only [List.cons_append, resolveParts]
    simp only [List.append_eq]
    by_cases hp : p = [] ∨ p = ['.']
    · rw [if_pos hp, if_pos hp, ih stack f h0 h1 h2]
    · rw [if_neg hp, if_neg hp]
      by_cases hpp : p = ['.', '.']
      · rw [if_pos hpp, if_pos hpp, ih stack.tail f h0 h1 h2]
      · rw [if_neg hpp, if_neg hpp, ih (p :: stack) f h0 h1 h2]

theorem joinSlash_append_last (ps : List (List Char)) (f : List Char) :
    joinSlash (ps ++ [f]) = match ps with
      | [] => f
      | _ :: _ => joinSlash ps ++ '/' :: f := by
  induction ps with
  | nil => simp [joinSlash]
  | cons p ps ih =>
    cases ps with
    | nil => simp [joinSlash]
    | cons q qs =>
      simp only [List.cons_append, joinSlash] at ih ⊢
      simp only [List.append_eq] at ih ⊢
      rw [ih]
      simp

/-- The base name of the absolute path produced from a directory joined
with a plain final component is that component. -/
theorem baseName_abspath (cwd outDir f : List Char) (hf : '/' ∉ f)
    (h0 : f ≠ []) (h1 : f ≠ ['.']) (h2 : f ≠ ['.', '.']) :
    baseName (abspath cwd (joinPath outDir f)) = f := by
  have hhead : f.head? ≠ some '/' := by
    cases f with
    | nil => simp
    | cons c cs =>
      simp only [List.head?_cons, ne_eq, Option.some.injEq]
      intro he
      exact hf (he ▸ List.mem_cons_self c cs)
  unfold joinPath
  rw [if_neg hhead]
  unfold abspath
  have key : ∀ Y : List Char,
      baseName ('/' :: joinSlash (resolveParts [] (splitSlash (Y ++ '/' :: f)))) = f := by
    intro Y
    rw [splitSlash_append, splitSlash_no_slash hf, resolveParts_push _ _ f h0 h1 h2,
      joinSlash_append_last]
    cases hr : resolveParts [] (splitSlash Y) with
    | nil =>
      simpa using baseName_append hf []
    | cons q qs =>
      simp only
      rw [show '/' :: (joinSlash (q :: qs) ++ '/' :: f)
          = ('/' :: joinSlash (q :: qs)) ++ '/' :: f by simp]
      exact baseName_append hf _
  by_cases hD : (outDir ++ '/' :: f).head? = some '/'
  · rw [if_pos hD]
    exact key outDir
  · rw [if_neg hD]
    rw [show cwd ++ '/' :: (outDir ++ '/' :: f) = (cwd ++ '/' :: outDir) ++ '/' :: f by simp]
    exact key (cwd ++ '/' :: outDir)

/-! ## Round-trip lemmas: numerals and string bodies -/

theorem digitChar_isDigit {d : Nat} (h : d < 10) : (digitChar d).isDigit = true := by
  interval_cases d <;> decide

theorem digitVal_digitChar {d : Nat} (h : d < 10) : digitVal (digitChar d) = d := by
  interval_cases d <;> decide

theorem natSerF_shape : ∀ (n f : Nat) (acc : List Char), n ≤ f →
    ∃ ds, natSerF f n acc = ds ++ acc ∧ ds ≠ [] ∧ (∀ c ∈ ds, c.isDigit = true) ∧
      ∀ a0 : Nat, ds.foldl (fun a c => a * 10 + digitVal c) a0 = a0 * 10 ^ ds.length + n := by
  intro n
  induction n using Nat.strong_induction_on with
  | _ n ih =>
    intro f acc hnf
    by_cases hn : n < 10
    · have hbody : natSerF f n acc = digitChar n :: acc := by
        cases f with
        | zero => simp [natSerF, Nat.mod_eq_of_lt hn]
        | succ g => simp [natSerF, hn]
      refine ⟨[digitChar n], by simpa using hbody, by simp, ?_, ?_⟩
      · intro c hc
        rw [List.mem_singleton] at hc
        subst hc
        exact digitChar_isDigit hn
      · intro a0
        simp [List.foldl, digitVal_digitChar hn]
    · push_neg at hn
      obtain ⟨g, rfl⟩ : ∃ g, f = g + 1 := ⟨f - 1, by omega⟩
      have hstep : natSerF (g + 1) n acc
          = natSerF g (n / 10) (digitChar (n % 10) :: acc) := by
        simp [natSerF, Nat.not_lt.mpr hn]
      have hlt : n / 10 < n := Nat.div_lt_self (by omega) (by omega)
      obtain ⟨ds, hds, hne, hdig, hfold⟩ :=
        ih (n / 10) hlt g (digitChar (n % 10) :: acc) (by omega)
      refine ⟨ds ++ [digitChar (n % 10)], ?_, by simp, ?_, ?_⟩
      · rw [hstep, hds]; simp
      · intro c hc
        rcases List.mem_append.mp hc with h | h
        · exact hdig c h
        · rw [List.mem_singleton] at h
          subst h
          exact digitChar_isDigit (Nat.mod_lt _ (by omega))
      · intro a0
        rw [List.foldl_append, hfold]
        simp only [List.foldl, List.length_append, List.length_singleton]
        rw [digitVal_digitChar (Nat.mod_lt _ (by omega))]
        calc (a0 * 10 ^ ds.length + n / 10) * 10 + n % 10
            = a0 * (10 ^ ds.length * 10) + (n / 10 * 10 + n % 10) := by ring
          _ = a0 * 10 ^ (ds.length + 1) + n := by
              rw [Nat.div_add_mod', ← pow_succ]

theorem natSer_shape (n : Nat) :
    ∃ ds, natSer n = ds ∧ ds ≠ [] ∧ (∀ c ∈ ds, c.isDigit = true) ∧
      ∀ a0 : Nat, ds.foldl (fun a c => a * 10 + digitVal c) a0 = a0 * 10 ^ ds.length + n := by
  obtain ⟨ds, hds, hne, hdig, hfold⟩ := natSerF_shape n n [] le_rfl
  exact ⟨ds, by simpa using hds, hne, hdig, hfold⟩

theorem takeWhile_all {p : Char → Bool} : ∀ {a : List Char},
    (∀ c ∈ a, p c = true) → a.takeWhile p = a := by
  intro a
  induction a with
  | nil => simp
  | cons c a ih =>
    intro h
    have hc := h c (List.mem_cons_self c a)
    simp only [List.takeWhile, hc]
    rw [ih (fun y hy => h y (List.mem_cons_of_mem c hy))]

theorem dropWhile_all {p : Char → Bool} : ∀ {a : List Char},
    (∀ c ∈ a, p c = true) → a.dropWhile p = [] := by
  intro a
  induction a with
  | nil => simp
  | cons c a ih =>
    intro h
    have hc := h c (List.mem_cons_self c a)
    simp only [List.dropWhile, hc]
    exact ih (fun y hy => h y (List.mem_cons_of_mem c hy))

theorem dropWhile_append_stop {p : Char → Bool} {a : List Char} {x : Char}
    (ha : ∀ c ∈ a, p c = true) (hx : p x = false) (b : List Char) :
    List.dropWhile p (a ++ x :: b) = x :: b := by
  induction a with
  | nil => simp [List.dropWhile, hx]
  | cons c a ih =>
    have hc : p c = true := ha c (List.mem_cons_self c a)
    simp only [List.cons_append, List.dropWhile, hc]
    simp only [List.append_eq]
    exact ih (fun y hy => ha y (List.mem_cons_of_mem c hy))

theorem parseDigits_ser (n : Nat) (rest : List Char)
    (hrest : ∀ c, rest.head? = some c → c.isDigit = false) :
    parseDigits (natSer n ++ rest) = some (n, rest) := by
  obtain ⟨ds, hds, hne, hdig, hfold⟩ := natSer_shape n
  rw [hds]
  unfold parseDigits
  have htake : (ds ++ rest).takeWhile Char.isDigit = ds := by
    cases rest with
    | nil => rw [List.append_nil]; exact takeWhile_all hdig
    | cons x b => exact takeWhile_append_stop hdig (hrest x rfl) b
  have hdrop : (ds ++ rest).dropWhile Char.isDigit = rest := by
    cases rest with
    | nil => rw [List.append_nil]; exact dropWhile_all hdig
    | cons x b => exact dropWhile_append_stop hdig (hrest x rfl) b
  rw [htake, hdrop]
  rw [if_neg (by simpa using hne)]
  have := hfold 0
  simp only [Nat.zero_mul, Nat.zero_add] at this
  rw [this]

theorem natSer_head_digit (n : Nat) :
    ∃ c cs, natSer n = c :: cs ∧ c.isDigit = true := by
  obtain ⟨ds, hds, hne, hdig, _⟩ := natSer_shape n
  cases ds with
  | nil => exact absurd rfl hne
  | cons c cs =>
    exact ⟨c, cs, hds, hdig c (List.mem_cons_self c cs)⟩

theorem intTok_ser (i : Int) (rest : List Char)
    (hrest : ∀ c, rest.head? = some c → c.isDigit = false) :
    intTok (intSer i ++ rest) = some (i, rest) := by
  cases i with
  | ofNat n =>
    obtain ⟨c, cs, hser, hc⟩ := natSer_head_digit n
    have hne : c ≠ '-' := by
      intro he; subst he; exact absurd hc (by decide)
    simp only [intSer, hser, List.cons_append, intTok]
    rw [if_neg hne]
    rw [show c :: (cs ++ rest) = (c :: cs) ++ rest from rfl, ← hser,
      parseDigits_ser n rest hrest]
    rfl
  | negSucc m =>
    simp only [intSer, List.cons_append, intTok, if_pos rfl]
    rw [parseDigits_ser (m + 1) rest hrest]
    simp only [Option.map_some']
    have hneg : -((m + 1 : Nat) : Int) = Int.negSucc m := by
      rw [Int.negSucc_eq]
      push_cast
      ring
    rw [hneg]
    simp

theorem plainChar_ne {c : Char} (h : plainChar c = true) :
    c ≠ '"' ∧ c ≠ '\'' ∧ c ≠ '\\' := by
  refine ⟨?_, ?_, ?_⟩ <;> intro he <;> subst he <;> exact absurd h (by decide)

theorem strBody_plain (a : Bool) {q : Char} (hq : plainChar q = false)
    {s : List Char} (hs : ∀ c ∈ s, plainChar c = true) (rest : List Char) :
    strBody a q (s ++ q :: rest) = some (s, rest) := by
  induction s with
  | nil =>
    rw [List.nil_append, strBody.eq_def]
    simp
  | cons c s ih =>
    have hc := hs c (List.mem_cons_self c s)
    have hcq : c ≠ q := by
      intro he; rw [he] at hc; rw [hc] at hq; exact absurd hq (by simp)
    have hcb : c ≠ '\\' := (plainChar_ne hc).2.2
    rw [List.cons_append, strBody.eq_def]
    simp only [hcq, hcb, if_false, ite_false]
    rw [ih (fun y hy => hs y (List.mem_cons_of_mem c hy))]

theorem skipWs_cons {c : Char} (h : isWsB c = false) (cs : List Char) :
    skipWs (c :: cs) = c :: cs := by
  simp [skipWs, List.dropWhile, h]

theorem isDigit_not_ws {c : Char} (h : c.isDigit = true) : isWsB c = false := by
  cases hw : isWsB c with
  | false => rfl
  | true =>
    exfalso
    simp only [isWsB, Bool.or_eq_true, beq_iff_eq] at hw
    rcases hw with ((h1 | h1) | h1) | h1 <;> (subst h1; exact absurd h (by decide))

theorem isDigit_ne {c : Char} (h : c.isDigit = true) :
    c ≠ '[' ∧ c ≠ '{' ∧ c ≠ '"' ∧ c ≠ '\'' ∧ c ≠ 't' ∧ c ≠ 'f' ∧ c ≠ 'n' ∧
      c ≠ 'T' ∧ c ≠ 'F' ∧ c ≠ 'N' ∧ c ≠ '-' := by
  refine ⟨?_, ?_, ?_, ?_, ?_, ?_, ?_, ?_, ?_, ?_, ?_⟩ <;>
    (intro he; subst he; exact absurd h (by decide))

/-- Unfolding `valP` at a head character that is neither whitespace nor
an opening bracket: the scalar branch chain. -/
theorem valP_catchall (D : Dialect) (f : Nat) {c : Char} (r : List Char)
    (hws : isWsB c = false) (h1 : c ≠ '[') (h2 : c ≠ '{') :
    valP D (f + 1) (c :: r) =
      (match D.strLit (c :: r) with
       | some p => some (.pyStr p.1, p.2)
       | none =>
         match stripTok D.tTrue (c :: r) with
         | some r2 => some (.pyBool true, r2)
         | none =>
           match stripTok D.tFalse (c :: r) with
           | some r2 => some (.pyBool false, r2)
           | none =>
             match stripTok D.tNone (c :: r) with
             | some r2 => some (.pyNone, r2)
             | none =>
               match intTok (c :: r) with
               | some p => some (.pyInt p.1, p.2)
               | none => none) := by
  rw [valP.eq_2, skipWs_cons hws]
  simp only
  rw [if_neg h1, if_neg h2]

/-- Unfolding `valP` at `{`. -/
theorem valP_lbrace (D : Dialect) (f : Nat) (X : List Char) :
    valP D (f + 1) ('{' :: X) =
      (if (skipWs X).head? = some '}' then some (.pyDict [], (skipWs X).tail)
       else
         match kvsP D f (skipWs X) with
         | none => none
         | some p => some (.pyDict p.1, p.2)) := by
  rw [valP.eq_2, skipWs_cons (by decide)]
  simp only
  rw [if_neg (by decide)]
  simp

/-- Unfolding `valP` at `[`. -/
theorem valP_lbrack (D : Dialect) (f : Nat) (X : List Char) :
    valP D (f + 1) ('[' :: X) =
      (if (skipWs X).head? = some ']' then some (.pyList [], (skipWs X).tail)
       else
         match elemsP D f (skipWs X) with
         | none => none
         | some p => some (.pyList p.1, p.2)) := by
  rw [valP.eq_2, skipWs_cons (by decide)]
  simp

theorem valP_scalar {S : SerDialect} {D : Dialect} (C : Compat S D)
    (f : Nat) (v : Scalar) (rest : List Char) (hp : plainScalar v = true)
    (hrest : ∀ c, rest.head? = some c → c.isDigit = false) :
    valP D (f + 1) (scalarSer S v ++ rest) = some (scalarVal v, rest) := by
  cases v with
  | sInt n => exact C.valP_int f n rest hrest
  | sStr s =>
    have h := C.valP_str f s rest (by simpa [plainScalar, List.all_eq_true] using hp)
    rw [show scalarSer S (.sStr s) ++ rest = S.quote :: (s ++ S.quote :: rest) by
      simp [scalarSer]]
    exact h
  | sBool b =>
    cases b with
    | true => exact C.valP_true f rest
    | false => exact C.valP_false f rest
  | sNull => exact C.valP_none f rest

theorem rowVal_eq (r : Row) : rowVal r = .pyDict (rowEntries r) := rfl

theorem plainRow_cons {kv : List Char × Scalar} {kvs : Row}
    (h : plainRow (kv :: kvs) = true) :
    (∀ c ∈ kv.1, plainChar c = true) ∧ plainScalar kv.2 = true ∧
      plainRow kvs = true := by
  simp only [plainRow, List.all_cons, Bool.and_eq_true] at h
  exact ⟨by simpa [List.all_eq_true] using h.1.1, h.1.2, h.2⟩

theorem kvsP_ser {S : SerDialect} {D : Dialect} (C : Compat S D) :
    ∀ (r : Row) (g : Nat) (rest : List Char), plainRow r = true → r ≠ [] →
    kvsP D (g + r.length + 1) (rowSerAux S r ++ '}' :: rest) =
      some (rowEntries r, rest) := by
  intro r
  induction r with
  | nil => intro g rest _ hne; exact absurd rfl hne
  | cons kv kvs ih =>
    intro g rest hplain _
    obtain ⟨hk, hv, hkvs⟩ := plainRow_cons hplain
    cases kvs with
    | nil =>
      rw [show rowSerAux S [kv] ++ '}' :: rest =
          S.quote :: (kv.1 ++ S.quote :: (':' :: (scalarSer S kv.2 ++ '}' :: rest)))
        by simp [rowSerAux, kvSer]]
      rw [show g + [kv].length + 1 = (g + 1) + 1 by simp]
      rw [kvsP.eq_2, skipWs_cons C.qws, C.key_parse kv.1 _ hk]
      simp only
      rw [skipWs_cons (by decide)]
      rw [if_pos (show (':' :: (scalarSer S kv.2 ++ '}' :: rest)).head? = some ':' from rfl)]
      simp only [List.tail_cons]
      rw [show g + 1 = g + 1 from rfl,
        valP_scalar C g kv.2 ('}' :: rest) hv
          (by intro c hc; simp at hc; subst hc; decide)]
      simp only
      rw [skipWs_cons (by decide)]
      rw [if_neg (show ¬ (('}' :: rest).head? = some ',') from by simp)]
      rw [if_pos (show ('}' :: rest).head? = some '}' from rfl)]
      simp [rowEntries]
    | cons kv2 kvs2 =>
      rw [show rowSerAux S (kv :: kv2 :: kvs2) ++ '}' :: rest =
          S.quote :: (kv.1 ++ S.quote :: (':' :: (scalarSer S kv.2 ++
            ',' :: (rowSerAux S (kv2 :: kvs2) ++ '}' :: rest))))
        by simp [rowSerAux, kvSer]]
      rw [show g + (kv :: kv2 :: kvs2).length + 1 = (g + (kv2 :: kvs2).length + 1) + 1
        by simp; omega]
      rw [kvsP.eq_2, skipWs_cons C.qws, C.key_parse kv.1 _ hk]
      simp only
      rw [skipWs_cons (by decide)]
      rw [if_pos (show (':' :: (scalarSer S kv.2 ++ ',' ::
        (rowSerAux S (kv2 :: kvs2) ++ '}' :: rest))).head? = some ':' from rfl)]
      simp only [List.tail_cons]
      rw [show g + (kv2 :: kvs2).length + 1 = (g + (kv2 :: kvs2).length) + 1 from rfl,
        valP_scalar C (g + (kv2 :: kvs2).length) kv.2 _ hv
          (by intro c hc; simp at hc; subst hc; decide)]
      simp only
      rw [skipWs_cons (by decide)]
      rw [if_pos (show (',' :: (rowSerAux S (kv2 :: kvs2) ++ '}' :: rest)).head?
        = some ',' from rfl)]
      simp only [List.tail_cons]
      rw [ih g rest hkvs (by simp)]
      simp [rowEntries]

theorem rowSerAux_cons_shape (S : SerDialect) (kv : List Char × Scalar) (kvs : Row) :
    ∃ X, rowSerAux S (kv :: kvs) = S.quote :: X := by
  cases kvs with
  | nil =>
    exact ⟨kv.1 ++ S.quote :: ':' :: scalarSer S kv.2, by simp [rowSerAux, kvSer]⟩
  | cons kv2 kvs2 =>
    exact ⟨kv.1 ++ S.quote :: ':' :: (scalarSer S kv.2 ++ ',' :: rowSerAux S (kv2 :: kvs2)),
      by simp [rowSerAux, kvSer]⟩

theorem valP_row {S : SerDialect} {D : Dialect} (C : Compat S D)
    (g : Nat) (r : Row) (rest : List Char) (hplain : plainRow r = true) :
    valP D (g + r.length + 2) (rowSer S r ++ rest) = some (rowVal r, rest) := by
  rw [show rowSer S r ++ rest = '{' :: (rowSerAux S r ++ '}' :: rest) by simp [rowSer]]
  rw [show g + r.length + 2 = (g + r.length + 1) + 1 by omega]
  rw [valP_lbrace D (g + r.length + 1) _]
  cases r with
  | nil =>
    rw [show rowSerAux S [] ++ '}' :: rest = '}' :: rest by simp [rowSerAux]]
    rw [skipWs_cons (by decide)]
    rw [if_pos (show ('}' :: rest).head? = some '}' from rfl)]
    simp [rowVal]
  | cons kv kvs =>
    obtain ⟨X, hX⟩ := rowSerAux_cons_shape S kv kvs
    rw [hX, List.cons_append, skipWs_cons C.qws]
    rw [if_neg (show ¬ ((S.quote :: (X ++ '}' :: rest)).head? = some '}') from by
      simp only [List.head?_cons, Option.some.injEq]
      exact C.qne_rbrace)]
    rw [show S.quote :: (X ++ '}' :: rest) = rowSerAux S (kv :: kvs) ++ '}' :: rest by
      rw [hX, List.cons_append]]
    rw [kvsP_ser C (kv :: kvs) g rest hplain (by simp)]
    simp [rowVal_eq]

theorem plainTable_cons {r : Row} {rs : Table} (h : plainTable (r :: rs) = true) :
    plainRow r = true ∧ plainTable rs = true := by
  have h2 := h
  simp only [plainTable, List.all_cons, Bool.and_eq_true] at h2
  exact h2

theorem elemsP_ser {S : SerDialect} {D : Dialect} (C : Compat S D) :
    ∀ (t : Table) (g : Nat) (rest : List Char), plainTable t = true → t ≠ [] →
    elemsP D (g + szRows t) (tableSerAux S t ++ ']' :: rest) =
      some (t.map rowVal, rest) := by
  intro t
  induction t with
  | nil => intro g rest _ hne; exact absurd rfl hne
  | cons r rs ih =>
    intro g rest hplain _
    obtain ⟨hr, hrs⟩ := plainTable_cons hplain
    cases rs with
    | nil =>
      rw [show tableSerAux S [r] ++ ']' :: rest = rowSer S r ++ ']' :: rest by
        simp [tableSerAux]]
      rw [show g + szRows [r] = (g + r.length + 2) + 1 by simp [szRows]; omega]
      rw [elemsP.eq_2]
      rw [valP_row C g r (']' :: rest) hr]
      simp only
      rw [skipWs_cons (by decide)]
      rw [if_neg (show ¬ ((']' :: rest).head? = some ',') from by simp)]
      rw [if_pos (show (']' :: rest).head? = some ']' from rfl)]
      simp
    | cons r2 rs2 =>
      rw [show tableSerAux S (r :: r2 :: rs2) ++ ']' :: rest =
          rowSer S r ++ ',' :: (tableSerAux S (r2 :: rs2) ++ ']' :: rest) by
        simp [tableSerAux]]
      rw [show g + szRows (r :: r2 :: rs2) =
          ((g + szRows (r2 :: rs2)) + r.length + 2) + 1 by simp [szRows]; omega]
      rw [elemsP.eq_2]
      rw [valP_row C (g + szRows (r2 :: rs2)) r _ hr]
      simp only
      rw [skipWs_cons (by decide)]
      rw [if_pos (show (',' :: (tableSerAux S (r2 :: rs2) ++ ']' :: rest)).head?
        = some ',' from rfl)]
      simp only [List.tail_cons]
      rw [show (g + szRows (r2 :: rs2)) + r.length + 2 =
        (g + r.length + 2) + szRows (r2 :: rs2) by omega]
      rw [ih (g + r.length + 2) rest hrs (by simp)]
      simp

theorem tableSerAux_cons_shape (S : SerDialect) (r : Row) (rs : Table) :
    ∃ X, tableSerAux S (r :: rs) = '{' :: X := by
  cases rs with
  | nil => exact ⟨rowSerAux S r ++ ['}'], by simp [tableSerAux, rowSer]⟩
  | cons r2 rs2 =>
    exact ⟨rowSerAux S r ++ '}' :: ',' :: tableSerAux S (r2 :: rs2),
      by simp [tableSerAux, rowSer]⟩

theorem valP_table {S : SerDialect} {D : Dialect} (C : Compat S D)
    (g : Nat) (t : Table) (rest : List Char) (hplain : plainTable t = true) :
    valP D (g + szRows t + 1) (tableSer S t ++ rest) = some (tableVal t, rest) := by
  rw [show tableSer S t ++ rest = '[' :: (tableSerAux S t ++ ']' :: rest) by
    simp [tableSer]]
  rw [show g + szRows t + 1 = (g + szRows t) + 1 from rfl]
  rw [valP_lbrack D (g + szRows t) _]
  cases t with
  | nil =>
    rw [show tableSerAux S [] ++ ']' :: rest = ']' :: rest by simp [tableSerAux]]
    rw [skipWs_cons (by decide)]
    rw [if_pos (show (']' :: rest).head? = some ']' from rfl)]
    simp [tableVal]
  | cons r rs =>
    obtain ⟨X, hX⟩ := tableSerAux_cons_shape S r rs
    rw [hX, List.cons_append, skipWs_cons (by decide)]
    rw [if_neg (show ¬ (('{' :: (X ++ ']' :: rest)).head? = some ']') from by simp)]
    rw [show '{' :: (X ++ ']' :: rest) = tableSerAux S (r :: rs) ++ ']' :: rest by
      rw [hX, List.cons_append]]
    rw [elemsP_ser C (r :: rs) g rest hplain (by simp)]
    simp [tableVal]

theorem intSer_shape (i : Int) :
    ∃ c cs, intSer i = c :: cs ∧ (c.isDigit = true ∨ c = '-') := by
  cases i with
  | ofNat n =>
    obtain ⟨c, cs, hser, hc⟩ := natSer_head_digit n
    exact ⟨c, cs, by simpa [intSer] using hser, Or.inl hc⟩
  | negSucc m => exact ⟨'-', natSer (m + 1), rfl, Or.inr rfl⟩

theorem valP_int_gen {D : Dialect} (f : Nat) (i : Int) (rest : List Char)
    (hrest : ∀ c, rest.head? = some c → c.isDigit = false)
    (hstr : ∀ c X, c.isDigit = true ∨ c = '-' → D.strLit (c :: X) = none)
    (ht : ∀ c X, c.isDigit = true ∨ c = '-' → stripTok D.tTrue (c :: X) = none)
    (hf : ∀ c X, c.isDigit = true ∨ c = '-' → stripTok D.tFalse (c :: X) = none)
    (hn : ∀ c X, c.isDigit = true ∨ c = '-' → stripTok D.tNone (c :: X) = none) :
    valP D (f + 1) (intSer i ++ rest) = some (.pyInt i, rest) := by
  obtain ⟨c, cs, hser, hc⟩ := intSer_shape i
  have hws : isWsB c = false := by
    rcases hc with h | h
    · exact isDigit_not_ws h
    · subst h; decide
  have h1 : c ≠ '[' := by
    rcases hc with h | h
    · exact (isDigit_ne h).1
    · subst h; decide
  have h2 : c ≠ '{' := by
    rcases hc with h | h
    · exact (isDigit_ne h).2.1
    · subst h; decide
  rw [hser, List.cons_append, valP_catchall D f _ hws h1 h2]
  rw [hstr c _ hc, ht c _ hc, hf c _ hc, hn c _ hc]
  rw [show c :: (cs ++ rest) = intSer i ++ rest by rw [hser, List.cons_append]]
  rw [intTok_ser i rest hrest]

/-- The JSON writer's output is read back by the `json.loads` model. -/
theorem jsonCompat : Compat jsonSD jsonD := by
  refine ⟨by decide, by decide, ?_, ?_, ?_, ?_, ?_, ?_⟩
  · intro k rest hk
    show jsonStrLit ('"' :: (k ++ '"' :: rest)) = some (k, rest)
    simp only [jsonStrLit, if_pos rfl]
    exact strBody_plain false (by decide) hk rest
  · intro f s rest hs
    show valP jsonD (f + 1) ('"' :: (s ++ '"' :: rest)) = _
    rw [valP_catchall jsonD f _ (by decide) (by decide) (by decide)]
    rw [show jsonD.strLit ('"' :: (s ++ '"' :: rest)) = some (s, rest) from by
      show jsonStrLit ('"' :: (s ++ '"' :: rest)) = some (s, rest)
      simp only [jsonStrLit, if_pos rfl]
      exact strBody_plain false (by decide) hs rest]
  · intro f rest
    show valP jsonD (f + 1) ('t' :: 'r' :: 'u' :: 'e' :: rest) = _
    rw [valP_catchall jsonD f _ (by decide) (by decide) (by decide)]
    rw [show jsonD.strLit ('t' :: 'r' :: 'u' :: 'e' :: rest) = none from by
      simp [jsonD, jsonStrLit]]
    rw [show stripTok jsonD.tTrue ('t' :: 'r' :: 'u' :: 'e' :: rest) = some rest from
      stripTok_self_append _ rest]
  · intro f rest
    show valP jsonD (f + 1) ('f' :: 'a' :: 'l' :: 's' :: 'e' :: rest) = _
    rw [valP_catchall jsonD f _ (by decide) (by decide) (by decide)]
    rw [show jsonD.strLit ('f' :: 'a' :: 'l' :: 's' :: 'e' :: rest) = none from by
      simp [jsonD, jsonStrLit]]
    rw [show stripTok jsonD.tTrue ('f' :: 'a' :: 'l' :: 's' :: 'e' :: rest) = none from by
      simp [jsonD, stripTok]]
    rw [show stripTok jsonD.tFalse ('f' :: 'a' :: 'l' :: 's' :: 'e' :: rest) = some rest from
      stripTok_self_append _ rest]
  · intro f rest
    show valP jsonD (f + 1) ('n' :: 'u' :: 'l' :: 'l' :: rest) = _
    rw [valP_catchall jsonD f _ (by decide) (by decide) (by decide)]
    rw [show jsonD.strLit ('n' :: 'u' :: 'l' :: 'l' :: rest) = none from by
      simp [jsonD, jsonStrLit]]
    rw [show stripTok jsonD.tTrue ('n' :: 'u' :: 'l' :: 'l' :: rest) = none from by
      simp [jsonD, stripTok]]
    rw [show stripTok jsonD.tFalse ('n' :: 'u' :: 'l' :: 'l' :: rest) = none from by
      simp [jsonD, stripTok]]
    rw [show stripTok jsonD.tNone ('n' :: 'u' :: 'l' :: 'l' :: rest) = some rest from
      stripTok_self_append _ rest]
  · intro f i rest hrest
    refine valP_int_gen f i rest hrest ?_ ?_ ?_ ?_
    · intro c X hc
      have : c ≠ '"' := by
        rcases hc with h | h
        · exact (isDigit_ne h).2.2.1
        · subst h; decide
      simp [jsonD, jsonStrLit, this]
    · intro c X hc
      have : c ≠ 't' := by
        rcases hc with h | h
        · exact (isDigit_ne h).2.2.2.2.1
        · subst h; decide
      simp [jsonD, stripTok, this]
    · intro c X hc
      have : c ≠ 'f' := by
        rcases hc with h | h
        · exact (isDigit_ne h).2.2.2.2.2.1
        · subst h; decide
      simp [jsonD, stripTok, this]
    · intro c X hc
      have : c ≠ 'n' := by
        rcases hc with h | h
        · exact (isDigit_ne h).2.2.2.2.2.2.1
        · subst h; decide
      simp [jsonD, stripTok, this]

/-- The Python-repr writer's output is read back by the
`ast.literal_eval` model. -/
theorem pyCompat : Compat pySD pyD := by
  refine ⟨by decide, by decide, ?_, ?_, ?_, ?_, ?_, ?_⟩
  · intro k rest hk
    show pyStrLit ('\'' :: (k ++ '\'' :: rest)) = some (k, rest)
    simp only [pyStrLit, if_neg (by decide : ('\'' : Char) ≠ '"'), if_pos rfl]
    exact strBody_plain true (by decide) hk rest
  · intro f s rest hs
    show valP pyD (f + 1) ('\'' :: (s ++ '\'' :: rest)) = _
    rw [valP_catchall pyD f _ (by decide) (by decide) (by decide)]
    rw [show pyD.strLit ('\'' :: (s ++ '\'' :: rest)) = some (s, rest) from by
      show pyStrLit ('\'' :: (s ++ '\'' :: rest)) = some (s, rest)
      simp only [pyStrLit, if_neg (by decide : ('\'' : Char) ≠ '"'), if_pos rfl]
      exact strBody_plain true (by decide) hs rest]
  · intro f rest
    show valP pyD (f + 1) ('T' :: 'r' :: 'u' :: 'e' :: rest) = _
    rw [valP_catchall pyD f _ (by decide) (by decide) (by decide)]
    rw [show pyD.strLit ('T' :: 'r' :: 'u' :: 'e' :: rest) = none from by
      simp [pyD, pyStrLit]]
    rw [show stripTok pyD.tTrue ('T' :: 'r' :: 'u' :: 'e' :: rest) = some rest from
      stripTok_self_append _ rest]
  · intro f rest
    show valP pyD (f + 1) ('F' :: 'a' :: 'l' :: 's' :: 'e' :: rest) = _
    rw [valP_catchall pyD f _ (by decide) (by decide) (by decide)]
    rw [show pyD.strLit ('F' :: 'a' :: 'l' :: 's' :: 'e' :: rest) = none from by
      simp [pyD, pyStrLit]]
    rw [show stripTok pyD.tTrue ('F' :: 'a' :: 'l' :: 's' :: 'e' :: rest) = none from by
      simp [pyD, stripTok]]
    rw [show stripTok pyD.tFalse ('F' :: 'a' :: 'l' :: 's' :: 'e' :: rest) = some rest from
      stripTok_self_append _ rest]
  · intro f rest
    show valP pyD (f + 1) ('N' :: 'o' :: 'n' :: 'e' :: rest) = _
    rw [valP_catchall pyD f _ (by decide) (by decide) (by decide)]
    rw [show pyD.strLit ('N' :: 'o' :: 'n' :: 'e' :: rest) = none from by
      simp [pyD, pyStrLit]]
    rw [show stripTok pyD.tTrue ('N' :: 'o' :: 'n' :: 'e' :: rest) = none from by
      simp [pyD, stripTok]]
    rw [show stripTok pyD.tFalse ('N' :: 'o' :: 'n' :: 'e' :: rest) = none from by
      simp [pyD, stripTok]]
    rw [show stripTok pyD.tNone ('N' :: 'o' :: 'n' :: 'e' :: rest) = some rest from
      stripTok_self_append _ rest]
  · intro f i rest hrest
    refine valP_int_gen f i rest hrest ?_ ?_ ?_ ?_
    · intro c X hc
      have hq1 : c ≠ '"' := by
        rcases hc with h | h
        · exact (isDigit_ne h).2.2.1
        · subst h; decide
      have hq2 : c ≠ '\'' := by
        rcases hc with h | h
        · exact (isDigit_ne h).2.2.2.1
        · subst h; decide
      simp [pyD, pyStrLit, hq1, hq2]
    · intro c X hc
      have : c ≠ 'T' := by
        rcases hc with h | h
        · exact (isDigit_ne h).2.2.2.2.2.2.2.1
        · subst h; decide
      simp [pyD, stripTok, this]
    · intro c X hc
      have : c ≠ 'F' := by
        rcases hc with h | h
        · exact (isDigit_ne h).2.2.2.2.2.2.2.2.1
        · subst h; decide
      simp [pyD, stripTok, this]
    · intro c X hc
      have : c ≠ 'N' := by
        rcases hc with h | h
        · exact (isDigit_ne h).2.2.2.2.2.2.2.2.2.1
        · subst h; decide
      simp [pyD, stripTok, this]

theorem rowSerAux_len (S : SerDialect) : ∀ r : Row,
    r.length ≤ (rowSerAux S r).length := by
  intro r
  induction r with
  | nil => simp [rowSerAux]
  | cons kv kvs ih =>
    cases kvs with
    | nil => simp [rowSerAux, kvSer]
    | cons kv2 kvs2 =>
      rw [show rowSerAux S (kv :: kv2 :: kvs2)
          = kvSer S kv ++ ',' :: rowSerAux S (kv2 :: kvs2) from rfl]
      simp only [List.length_cons, List.length_append, kvSer]
      simp only [List.length_cons, List.length_append] at ih ⊢
      omega

theorem szRows_le (S : SerDialect) : ∀ t : Table,
    szRows t ≤ (tableSerAux S t).length + 2 := by
  intro t
  induction t with
  | nil => simp [szRows, tableSerAux]
  | cons r rs ih =>
    have hrow := rowSerAux_len S r
    cases rs with
    | nil =>
      rw [show tableSerAux S [r] = rowSer S r from rfl]
      simp only [szRows, rowSer, List.length_cons, List.length_append,
        List.length_singleton]
      omega
    | cons r2 rs2 =>
      rw [show tableSerAux S (r :: r2 :: rs2)
          = rowSer S r ++ ',' :: tableSerAux S (r2 :: rs2) from rfl]
      simp only [szRows, rowSer, List.length_cons, List.length_append,
        List.length_singleton] at ih ⊢
      omega

theorem szRows_le_tableSer (S : SerDialect) (t : Table) :
    szRows t ≤ (tableSer S t).length := by
  have := szRows_le S t
  simp only [tableSer, List.length_cons, List.length_append, List.length_singleton]
  omega

/-- `json.loads` reads back the JSON text of a plain table. -/
theorem jsonLoads_tableJson (t : Table) (hp : plainTable t = true) :
    jsonLoads (tableJson t) = some (tableVal t) := by
  have hle := szRows_le_tableSer jsonSD t
  have h2 := valP_table jsonCompat ((tableSer jsonSD t).length - szRows t) t [] hp
  rw [List.append_nil] at h2
  rw [show (tableSer jsonSD t).length - szRows t + szRows t + 1
      = (tableSer jsonSD t).length + 1 from by omega] at h2
  unfold jsonLoads tableJson
  rw [h2]
  simp [skipWs]

/-- `ast.literal_eval` reads back the Python-literal text of a plain table. -/
theorem literalEval_tablePy (t : Table) (hp : plainTable t = true) :
    literalEval (tablePy t) = some (tableVal t) := by
  have hle := szRows_le_tableSer pySD t
  have h2 := valP_table pyCompat ((tableSer pySD t).length - szRows t) t [] hp
  rw [List.append_nil] at h2
  rw [show (tableSer pySD t).length - szRows t + szRows t + 1
      = (tableSer pySD t).length + 1 from by omega] at h2
  unfold literalEval tablePy
  rw [h2]
  simp [skipWs]

theorem tableSerAux_all_empty (S1 S2 : SerDialect) : ∀ t : Table,
    (∀ r ∈ t, r = []) → tableSerAux S1 t = tableSerAux S2 t := by
  intro t
  induction t with
  | nil => intro _; rfl
  | cons r rs ih =>
    intro h
    have hr : r = [] := h r (List.mem_cons_self r rs)
    subst hr
    cases rs with
    | nil => rfl
    | cons r2 rs2 =>
      rw [show tableSerAux S1 ([] :: r2 :: rs2)
          = rowSer S1 [] ++ ',' :: tableSerAux S1 (r2 :: rs2) from rfl,
        show tableSerAux S2 ([] :: r2 :: rs2)
          = rowSer S2 [] ++ ',' :: tableSerAux S2 (r2 :: rs2) from rfl]
      rw [ih (fun x hx => h x (List.mem_cons_of_mem _ hx))]
      rfl

theorem tablePy_eq_tableJson_of_empty_rows (t : Table) (h : ∀ r ∈ t, r = []) :
    tablePy t = tableJson t := by
  unfold tablePy tableJson tableSer
  rw [tableSerAux_all_empty pySD jsonSD t h]

theorem kvsP_json_quote_fail : ∀ (g : Nat) (Y : List Char),
    kvsP jsonD g ('\'' :: Y) = none := by
  intro g Y
  cases g with
  | zero => rfl
  | succ g2 =>
    rw [kvsP.eq_2, skipWs_cons (by decide)]
    rw [show jsonD.strLit ('\'' :: Y) = none from by simp [jsonD, jsonStrLit]]

/-- `json.loads` rejects the Python-repr form of any nonempty row (the
single-quoted key is not JSON). -/
theorem valP_json_pyRow_fail : ∀ (f : Nat) (r : Row) (X : List Char), r ≠ [] →
    valP jsonD f (rowSer pySD r ++ X) = none := by
  intro f r X hne
  cases f with
  | zero => rfl
  | succ g =>
    rw [show rowSer pySD r ++ X = '{' :: (rowSerAux pySD r ++ '}' :: X) by
      simp [rowSer]]
    rw [valP_lbrace jsonD g _]
    cases r with
    | nil => exact absurd rfl hne
    | cons kv kvs =>
      obtain ⟨Y, hY⟩ := rowSerAux_cons_shape pySD kv kvs
      have hY2 : rowSerAux pySD (kv :: kvs) = '\'' :: Y := hY
      rw [hY2, List.cons_append, skipWs_cons (by decide)]
      rw [if_neg (show ¬ (('\'' :: (Y ++ '}' :: X)).head? = some '}') from by simp)]
      rw [kvsP_json_quote_fail g _]

theorem valP_json_empty_dict (g : Nat) (Z : List Char) :
    valP jsonD (g + 1) ('{' :: '}' :: Z) = some (.pyDict [], Z) := by
  rw [valP_lbrace jsonD g _, skipWs_cons (by decide)]
  rw [if_pos (show ('}' :: Z).head? = some '}' from rfl)]
  simp

theorem elemsP_json_py_fail : ∀ (t : Table) (f : Nat) (X : List Char),
    (∃ r ∈ t, r ≠ []) →
    elemsP jsonD f (tableSerAux pySD t ++ ']' :: X) = none := by
  intro t
  induction t with
  | nil =>
    intro f X hex
    obtain ⟨r, hr, _⟩ := hex
    exact absurd hr (List.not_mem_nil r)
  | cons r rs ih =>
    intro f X hex
    cases f with
    | zero => rfl
    | succ g =>
      by_cases hr : r = []
      · subst hr
        cases rs with
        | nil =>
          obtain ⟨r2, hr2, hner⟩ := hex
          rw [List.mem_singleton] at hr2
          exact absurd hr2.symm (by simpa using hner)
        | cons r2 rs2 =>
          rw [show tableSerAux pySD ([] :: r2 :: rs2) ++ ']' :: X
              = '{' :: '}' :: (',' :: (tableSerAux pySD (r2 :: rs2) ++ ']' :: X)) by
            simp [tableSerAux, rowSer, rowSerAux]]
          rw [elemsP.eq_2]
          cases g with
          | zero => rfl
          | succ g2 =>
            rw [valP_json_empty_dict g2 _]
            simp only
            rw [skipWs_cons (by decide)]
            rw [if_pos (show (',' :: (tableSerAux pySD (r2 :: rs2) ++ ']' :: X)).head?
              = some ',' from rfl)]
            simp only [List.tail_cons]
            have hex2 : ∃ r ∈ r2 :: rs2, r ≠ [] := by
              obtain ⟨r3, hr3, hner⟩ := hex
              rcases List.mem_cons.mp hr3 with h | h
              · exact absurd h.symm (by simpa using hner)
              · exact ⟨r3, h, hner⟩
            rw [ih (g2 + 1) X hex2]
      · cases rs with
        | nil =>
          rw [show tableSerAux pySD [r] ++ ']' :: X = rowSer pySD r ++ ']' :: X by
            simp [tableSerAux]]
          rw [elemsP.eq_2, valP_json_pyRow_fail g r _ hr]
        | cons r2 rs2 =>
          rw [show tableSerAux pySD (r :: r2 :: rs2) ++ ']' :: X
              = rowSer pySD r ++ ',' :: (tableSerAux pySD (r2 :: rs2) ++ ']' :: X) by
            simp [tableSerAux]]
          rw [elemsP.eq_2, valP_json_pyRow_fail g r _ hr]

/-- `json.loads` fails on the Python-literal text as soon as any row is
nonempty. -/
theorem jsonLoads_tablePy_fail (t : Table) (hex : ∃ r ∈ t, r ≠ []) :
    jsonLoads (tablePy t) = none := by
  cases t with
  | nil =>
    obtain ⟨r, hr, _⟩ := hex
    exact absurd hr (List.not_mem_nil r)
  | cons r rs =>
    unfold jsonLoads tablePy
    rw [show tableSer pySD (r :: rs)
        = '[' :: (tableSerAux pySD (r :: rs) ++ ']' :: []) by simp [tableSer]]
    rw [show ('[' :: (tableSerAux pySD (r :: rs) ++ ']' :: [])).length
        = (tableSerAux pySD (r :: rs) ++ ']' :: []).length + 1 from rfl]
    rw [valP_lbrack jsonD _ _]
    obtain ⟨Y, hY⟩ := tableSerAux_cons_shape pySD r rs
    rw [hY, List.cons_append, skipWs_cons (by decide)]
    rw [if_neg (show ¬ (('{' :: (Y ++ ']' :: [])).head? = some ']') from by simp)]
    rw [show '{' :: (Y ++ ']' :: []) = tableSerAux pySD (r :: rs) ++ ']' :: [] by
      rw [hY, List.cons_append]]
    rw [elemsP_json_py_fail (r :: rs) _ [] hex]

/-! ## Artifact-name and store lemmas -/

theorem isLowerHex_word {c : Char} (h : isLowerHex c = true) : isWordChar c = true := by
  simp only [isLowerHex, Bool.or_eq_true, Bool.and_eq_true, decide_eq_true_eq] at h
  rcases h with h | ⟨h1, h2⟩
  · simp [isWordChar, Char.isAlphanum, h]
  · have h3 : c.val ≥ 97 := by simpa [Char.le_def] using h1
    have h4 : c.val ≤ 122 := by
      have h5 : c ≤ 'z' := le_trans h2 (by decide)
      simpa [Char.le_def] using h5
    simp [isWordChar, Char.isAlphanum, Char.isAlpha, Char.isLower, h3, h4]

theorem isLowerHex_ne_slash {c : Char} (h : isLowerHex c = true) : c ≠ '/' := by
  intro he; subst he; exact absurd h (by decide)

theorem vizFileName_eq_stem (hex : List Char) :
    vizFileName hex = vizStem hex ++ pngExt := by
  simp [vizFileName, vizStem]

theorem vizStem_word (hex : List Char)
    (hhex : ∀ c ∈ hex.take 8, isLowerHex c = true) :
    ∀ c ∈ vizStem hex, isWordChar c = true := by
  intro c hc
  simp only [vizStem, List.mem_cons] at hc
  rcases hc with h | h | h | h | h
  · subst h; decide
  · subst h; decide
  · subst h; decide
  · subst h; decide
  · exact isLowerHex_word (hhex c h)

theorem vizFileName_no_slash (hex : List Char)
    (hhex : ∀ c ∈ hex.take 8, isLowerHex c = true) :
    '/' ∉ vizFileName hex := by
  intro hm
  simp only [vizFileName, List.mem_cons, List.mem_append] at hm
  rcases hm with h | h | h | h | h | h
  · exact absurd h.symm (by decide)
  · exact absurd h.symm (by decide)
  · exact absurd h.symm (by decide)
  · exact absurd h.symm (by decide)
  · exact isLowerHex_ne_slash (hhex '/' h) rfl
  · simp only [pngExt, List.mem_cons] at h
    rcases h with h | h | h | h | h
    · exact absurd h.symm (by decide)
    · exact absurd h.symm (by decide)
    · exact absurd h.symm (by decide)
    · exact absurd h.symm (by decide)
    · exact absurd h (List.not_mem_nil '/')

theorem isVizName_vizFileName (hex : List Char) (hlen : 8 ≤ hex.length)
    (hhex : ∀ c ∈ hex.take 8, isLowerHex c = true) :
    isVizName (vizFileName hex) = true := by
  have htk : (hex.take 8).length = 8 := by
    rw [List.length_take]
    omega
  unfold isVizName vizFileName
  rw [show stripTok ('v' :: 'i' :: 'z' :: '_' :: [])
      ('v' :: 'i' :: 'z' :: '_' :: (hex.take 8 ++ pngExt))
      = some (hex.take 8 ++ pngExt) from stripTok_self_append _ _]
  show (((hex.take 8 ++ pngExt).take 8).length == 8 &&
      ((hex.take 8 ++ pngExt).take 8).all isLowerHex &&
      (hex.take 8 ++ pngExt).drop 8 == pngExt) = true
  have h1 : (hex.take 8 ++ pngExt).take 8 = hex.take 8 := by
    rw [List.take_append_eq_append_take, htk]
    simp
  have h2 : (hex.take 8 ++ pngExt).drop 8 = pngExt := by
    rw [List.drop_append_eq_append_drop, htk]
    simp
  rw [h1, h2, htk]
  simp only [beq_self_eq_true, Bool.and_true, Bool.true_and]
  rw [List.all_eq_true]
  intro c hc
  simpa using hhex c hc

theorem baseName_saveFigure (cwd outDir hex : List Char) (fs : List (List Char))
    (hhex : ∀ c ∈ hex.take 8, isLowerHex c = true) :
    baseName (saveFigure cwd outDir hex fs).1 = vizFileName hex := by
  unfold saveFigure
  simp only
  exact baseName_abspath cwd outDir (vizFileName hex)
    (vizFileName_no_slash hex hhex) (by simp [vizFileName])
    (by simp [vizFileName]) (by simp [vizFileName])

theorem abspath_head (cwd p : List Char) : (abspath cwd p).head? = some '/' := by
  simp [abspath]

theorem saveFigure_head (cwd outDir hex : List Char) (fs : List (List Char)) :
    (saveFigure cwd outDir hex fs).1.head? = some '/' := abspath_head _ _

theorem saveFigure_fs (cwd outDir hex : List Char) (fs : List (List Char)) :
    (saveFigure cwd outDir hex fs).2
      = writeFile (saveFigure cwd outDir hex fs).1 fs := rfl

theorem writeFile_mem (p : List Char) (fs : List (List Char)) :
    p ∈ writeFile p fs := by
  unfold writeFile
  by_cases h : p ∈ fs
  · rw [if_pos h]; exact h
  · rw [if_neg h]; simp

theorem countOcc_not_mem {p : List Char} : ∀ {fs : List (List Char)}, p ∉ fs →
    countOcc p fs = 0 := by
  intro fs
  induction fs with
  | nil => intro _; rfl
  | cons q fs ih =>
    intro h
    have hq : ¬ (q = p) := fun he => h (he ▸ List.mem_cons_self q fs)
    simp only [countOcc, List.filter_cons, decide_eq_true_eq]
    rw [if_neg (by simpa using hq)]
    exact ih (fun hm => h (List.mem_cons_of_mem q hm))

theorem countOcc_mem_nodup {p : List Char} : ∀ {fs : List (List Char)},
    fs.Nodup → p ∈ fs → countOcc p fs = 1 := by
  intro fs
  induction fs with
  | nil => intro _ h; exact absurd h (List.not_mem_nil p)
  | cons q fs ih =>
    intro hnd hm
    rcases List.mem_cons.mp hm with h | h
    · subst h
      have hnotin : p ∉ fs := by
        have := List.nodup_cons.mp hnd
        exact this.1
      simp only [countOcc, List.filter_cons]
      rw [if_pos (by simp)]
      simp only [List.length_cons]
      have := countOcc_not_mem hnotin
      simp only [countOcc] at this
      omega
    · have hnd2 := (List.nodup_cons.mp hnd).2
      have hq : ¬ (q = p) := by
        intro he
        subst he
        exact (List.nodup_cons.mp hnd).1 h
      simp only [countOcc, List.filter_cons]
      rw [if_neg (by simpa using hq)]
      exact ih hnd2 h

theorem countOcc_append (p : List Char) (fs1 fs2 : List (List Char)) :
    countOcc p (fs1 ++ fs2) = countOcc p fs1 + countOcc p fs2 := by
  simp [countOcc, List.filter_append]

theorem writeFile_count (p : List Char) (fs : List (List Char)) (hnd : fs.Nodup) :
    countOcc p (writeFile p fs) = 1 := by
  unfold writeFile
  by_cases h : p ∈ fs
  · rw [if_pos h]
    exact countOcc_mem_nodup hnd h
  · rw [if_neg h]
    rw [countOcc_append, countOcc_not_mem h]
    simp [countOcc]

theorem writeFile_length (p : List Char) (fs : List (List Char)) :
    (writeFile p fs).length ≤ fs.length + 1 := by
  unfold writeFile
  by_cases h : p ∈ fs
  · rw [if_pos h]; omega
  · rw [if_neg h]; simp

theorem vizSub_id {s : List Char} (h : vizFindAll s = []) : vizSub s = s :=
  vizSub_of_no_match s.length s le_rfl h

theorem saveFigure_spec (cwd outDir hex : List Char) (fs : List (List Char))
    (hnd : fs.Nodup) (hlen : 8 ≤ hex.length)
    (hhex : ∀ c ∈ hex.take 8, isLowerHex c = true) :
    isVizName (baseName (saveFigure cwd outDir hex fs).1) = true ∧
    (saveFigure cwd outDir hex fs).1.head? = some '/' ∧
    countOcc (saveFigure cwd outDir hex fs).1 (saveFigure cwd outDir hex fs).2 = 1 ∧
    (saveFigure cwd outDir hex fs).1 ∈ (saveFigure cwd outDir hex fs).2 ∧
    (saveFigure cwd outDir hex fs).2.length ≤ fs.length + 1 := by
  refine ⟨?_, saveFigure_head _ _ _ _, ?_, ?_, ?_⟩
  · rw [baseName_saveFigure _ _ _ _ hhex]
    exact isVizName_vizFileName hex hlen hhex
  · rw [saveFigure_fs]
    exact writeFile_count _ _ hnd
  · rw [saveFigure_fs]
    exact writeFile_mem _ _
  · rw [saveFigure_fs]
    exact writeFile_length _ _

theorem createBarChart_ok {cwd outDir : List Char} {t : Table}
    {x y hex : List Char} {fs : List (List Char)} {path : List Char}
    {fs2 : List (List Char)}
    (h : createBarChart cwd outDir t x y hex fs = (.ok path, fs2)) :
    path = (saveFigure cwd outDir hex fs).1 ∧
      fs2 = (saveFigure cwd outDir hex fs).2 := by
  simp only [createBarChart] at h
  split_ifs at h
  all_goals
    first
      | (simp only [Prod.mk.injEq, Except.ok.injEq] at h
         exact ⟨h.1.symm, h.2.symm⟩)
      | simp at h

theorem createLineChart_ok {cwd outDir : List Char} {t : Table}
    {x yc hex : List Char} {fs : List (List Char)} {path : List Char}
    {fs2 : List (List Char)}
    (h : createLineChart cwd outDir t x yc hex fs = (.ok path, fs2)) :
    path = (saveFigure cwd outDir hex fs).1 ∧
      fs2 = (saveFigure cwd outDir hex fs).2 := by
  simp only [createLineChart] at h
  split_ifs at h
  all_goals
    first
      | (simp only [Prod.mk.injEq, Except.ok.injEq] at h
         exact ⟨h.1.symm, h.2.symm⟩)
      | simp at h

theorem createBoxPlot_ok {cwd outDir : List Char} {t : Table}
    {v cat hex : List Char} {fs : List (List Char)} {path : List Char}
    {fs2 : List (List Char)}
    (h : createBoxPlot cwd outDir t v cat hex fs = (.ok path, fs2)) :
    path = (saveFigure cwd outDir hex fs).1 ∧
      fs2 = (saveFigure cwd outDir hex fs).2 := by
  simp only [createBoxPlot] at h
  split_ifs at h
  all_goals
    first
      | (simp only [Prod.mk.injEq, Except.ok.injEq] at h
         exact ⟨h.1.symm, h.2.symm⟩)
      | simp at h

/-! ## Claim theorems -/

/-- C1: for every artifact path returned by the artifact store, deriving
the embedded reference (base name spliced as `[VIZ:<basename>]` into
prose) and running the consumer-side extraction reproduces the original
base filename exactly, and stripping the reference leaves the
surrounding prose unchanged except for the removed substring. -/
theorem spec_c1_embed_roundtrip (cwd outDir hex : List Char)
    (fs : List (List Char)) (pre post : List Char)
    (hhex : ∀ c ∈ hex.take 8, isLowerHex c = true)
    (hpre : vizFindAll pre = []) (hpost : vizFindAll post = []) :
    vizFindAll (pre ++ (vizTag (baseName (saveFigure cwd outDir hex fs).1) ++ post))
      = [baseName (saveFigure cwd outDir hex fs).1] ∧
    vizSub (pre ++ (vizTag (baseName (saveFigure cwd outDir hex fs).1) ++ post))
      = pre ++ post := by
  have hb : baseName (saveFigure cwd outDir hex fs).1 = vizStem hex ++ pngExt := by
    rw [baseName_saveFigure _ _ _ _ hhex, vizFileName_eq_stem]
  have hw : vizStem hex ≠ [] := by simp [vizStem]
  have hword := vizStem_word hex hhex
  have hd := vizScan_decomp_valid pre (vizStem hex) post hw hword
  rw [hb]
  exact ⟨by rw [hd.1, hpre, hpost]; simp,
    by rw [hd.2, vizSub_id hpre, vizSub_id hpost]⟩

theorem spec_c1_embed_roundtrip_witness :
    vizFindAll ("Chart: ".toList ++ (vizTag (baseName (saveFigure "/app".toList
        "/w/agent/../viz_outputs".toList
        "0123abcd0123abcd0123abcd0123abcd".toList []).1) ++ " done".toList))
      = [baseName (saveFigure "/app".toList "/w/agent/../viz_outputs".toList
          "0123abcd0123abcd0123abcd0123abcd".toList []).1] ∧
    vizSub ("Chart: ".toList ++ (vizTag (baseName (saveFigure "/app".toList
        "/w/agent/../viz_outputs".toList
        "0123abcd0123abcd0123abcd0123abcd".toList []).1) ++ " done".toList))
      = "Chart: ".toList ++ " done".toList :=
  spec_c1_embed_roundtrip "/app".toList "/w/agent/../viz_outputs".toList
    "0123abcd0123abcd0123abcd0123abcd".toList [] "Chart: ".toList " done".toList
    (by decide) rfl rfl

/-- C2 counterexample: a line-chart request whose x selector and whose
single requested y column are both absent from the table succeeds and
writes an artifact, instead of failing with a column error — the loop
`if col in df.columns` silently skips absent y columns and then never
touches `df[x_column]`. -/
theorem spec_c2_counterexample :
    ("zz".toList ∉ dfColumns [[("a".toList, Scalar.sInt 1)]]) ∧
    ("ww".toList ∉ dfColumns [[("a".toList, Scalar.sInt 1)]]) ∧
    (createLineChart "/app".toList "/out".toList [[("a".toList, Scalar.sInt 1)]]
        "zz".toList "ww".toList "0123abcd".toList []).1
      = .ok (saveFigure "/app".toList "/out".toList "0123abcd".toList []).1 ∧
    (createLineChart "/app".toList "/out".toList [[("a".toList, Scalar.sInt 1)]]
        "zz".toList "ww".toList "0123abcd".toList []).2
      = [(saveFigure "/app".toList "/out".toList "0123abcd".toList []).1] :=
  ⟨by decide, by decide, rfl, rfl⟩

/-- C2 (amended): the bar chart's x and y selectors and the box plot's
value selector do fail with an error naming the absent column, writing
nothing; but the line chart silently skips absent y columns (validating
the x selector only when at least one requested y column is present, and
succeeding otherwise), and the box plot's absent grouping column
silently degrades to a single aggregate box. -/
theorem spec_c2_missing_column_amended (cwd outDir : List Char) (t : Table)
    (x y v cat xl yl hex : List Char) (fs : List (List Char)) :
    (x ∉ dfColumns t →
      createBarChart cwd outDir t x y hex fs = (.error (.missingColumn x), fs)) ∧
    (x ∈ dfColumns t → y ∉ dfColumns t →
      createBarChart cwd outDir t x y hex fs = (.error (.missingColumn y), fs)) ∧
    (v ∉ dfColumns t →
      createBoxPlot cwd outDir t v cat hex fs = (.error (.missingColumn v), fs)) ∧
    ((yColsOf yl).filter (fun c => decide (c ∈ dfColumns t)) = [] →
      (createLineChart cwd outDir t xl yl hex fs).1
        = .ok (saveFigure cwd outDir hex fs).1) := by
  refine ⟨?_, ?_, ?_, ?_⟩
  · intro hx
    unfold createBarChart
    rw [if_pos hx]
  · intro hx hy
    unfold createBarChart
    rw [if_neg (not_not_intro hx), if_pos hy]
  · intro hv
    unfold createBoxPlot
    by_cases hcat : cat ≠ [] ∧ cat ∈ dfColumns t
    · rw [if_pos hcat, if_pos hv]
    · rw [if_neg hcat, if_pos hv]
  · intro hfil
    unfold createLineChart
    rw [if_neg (show ¬ ((yColsOf yl).filter (fun c => decide (c ∈ dfColumns t)) ≠ []
        ∧ xl ∉ dfColumns t) from fun hc => hc.1 hfil)]

theorem spec_c2_missing_column_amended_witness :
    ("zz".toList ∉ dfColumns [[("a".toList, Scalar.sInt 1)]]) ∧
    createBarChart "/app".toList "/out".toList [[("a".toList, Scalar.sInt 1)]]
        "zz".toList "a".toList "0123abcd".toList []
      = (.error (.missingColumn "zz".toList), []) :=
  ⟨by decide,
    (spec_c2_missing_column_amended "/app".toList "/out".toList
      [[("a".toList, Scalar.sInt 1)]] "zz".toList "a".toList "v".toList "g".toList
      "m".toList "o".toList "0123abcd".toList []).1 (by decide)⟩

/-- C3: for every successful chart request (bar, line or box), exactly
one artifact file exists afterwards at the returned path, the returned
path is absolute, and its base name matches `viz_[0-9a-f]{8}\.png`. -/
theorem spec_c3_artifact_naming (cwd outDir : List Char) (t : Table)
    (x y v cat xl yl hex : List Char) (fs : List (List Char))
    (path : List Char) (fs2 : List (List Char))
    (hnd : fs.Nodup) (hlen : 8 ≤ hex.length)
    (hhex : ∀ c ∈ hex.take 8, isLowerHex c = true) :
    (createBarChart cwd outDir t x y hex fs = (.ok path, fs2) →
      isVizName (baseName path) = true ∧ path.head? = some '/' ∧
      countOcc path fs2 = 1 ∧ path ∈ fs2 ∧ fs2.length ≤ fs.length + 1) ∧
    (createLineChart cwd outDir t xl yl hex fs = (.ok path, fs2) →
      isVizName (baseName path) = true ∧ path.head? = some '/' ∧
      countOcc path fs2 = 1 ∧ path ∈ fs2 ∧ fs2.length ≤ fs.length + 1) ∧
    (createBoxPlot cwd outDir t v cat hex fs = (.ok path, fs2) →
      isVizName (baseName path) = true ∧ path.head? = some '/' ∧
      countOcc path fs2 = 1 ∧ path ∈ fs2 ∧ fs2.length ≤ fs.length + 1) := by
  have hs := saveFigure_spec cwd outDir hex fs hnd hlen hhex
  refine ⟨?_, ?_, ?_⟩
  · intro h
    obtain ⟨hp, hf⟩ := createBarChart_ok h
    subst hp; subst hf
    exact hs
  · intro h
    obtain ⟨hp, hf⟩ := createLineChart_ok h
    subst hp; subst hf
    exact hs
  · intro h
    obtain ⟨hp, hf⟩ := createBoxPlot_ok h
    subst hp; subst hf
    exact hs

theorem spec_c3_artifact_naming_witness :
    ([] : List (List Char)).Nodup ∧
    8 ≤ "0123abcd0123abcd0123abcd0123abcd".toList.length ∧
    (∀ c ∈ "0123abcd0123abcd0123abcd0123abcd".toList.take 8, isLowerHex c = true) ∧
    (createBarChart "/app".toList "/out".toList
        [[("category".toList, Scalar.sStr "A".toList), ("revenue".toList, Scalar.sInt 100)],
         [("category".toList, Scalar.sStr "B".toList), ("revenue".toList, Scalar.sInt 50)]]
        "category".toList "revenue".toList
        "0123abcd0123abcd0123abcd0123abcd".toList []
      = (.ok (saveFigure "/app".toList "/out".toList
          "0123abcd0123abcd0123abcd0123abcd".toList []).1,
         (saveFigure "/app".toList "/out".toList
          "0123abcd0123abcd0123abcd0123abcd".toList []).2)) ∧
    (isVizName (baseName (saveFigure "/app".toList "/out".toList
        "0123abcd0123abcd0123abcd0123abcd".toList []).1) = true ∧
      (saveFigure "/app".toList "/out".toList
        "0123abcd0123abcd0123abcd0123abcd".toList []).1.head? = some '/' ∧
      countOcc (saveFigure "/app".toList "/out".toList
          "0123abcd0123abcd0123abcd0123abcd".toList []).1
        (saveFigure "/app".toList "/out".toList
          "0123abcd0123abcd0123abcd0123abcd".toList []).2 = 1 ∧
      (saveFigure "/app".toList "/out".toList
          "0123abcd0123abcd0123abcd0123abcd".toList []).1
        ∈ (saveFigure "/app".toList "/out".toList
          "0123abcd0123abcd0123abcd0123abcd".toList []).2 ∧
      (saveFigure "/app".toList "/out".toList
          "0123abcd0123abcd0123abcd0123abcd".toList []).2.length
        ≤ ([] : List (List Char)).length + 1) :=
  ⟨List.nodup_nil, by decide, by decide, rfl,
    (spec_c3_artifact_naming "/app".toList "/out".toList
      [[("category".toList, Scalar.sStr "A".toList), ("revenue".toList, Scalar.sInt 100)],
       [("category".toList, Scalar.sStr "B".toList), ("revenue".toList, Scalar.sInt 50)]]
      "category".toList "revenue".toList "v".toList "g".toList "m".toList "o".toList
      "0123abcd0123abcd0123abcd0123abcd".toList []
      (saveFigure "/app".toList "/out".toList
        "0123abcd0123abcd0123abcd0123abcd".toList []).1
      (saveFigure "/app".toList "/out".toList
        "0123abcd0123abcd0123abcd0123abcd".toList []).2
      List.nodup_nil (by decide) (by decide)).1 rfl⟩

/-- C4: when a response text carries an embedded reference whose file
does not exist in the output directory, the consumer renders the prose
with all references stripped plus a visible warning naming the missing
file, and the render of the whole response still completes (the display
function is total and produces one item per reference). -/
theorem spec_c4_missing_artifact_warning (vizDir : List Char)
    (fs : List (List Char)) (text f : List Char)
    (hf : f ∈ vizFindAll text) (hmiss : joinPath vizDir f ∉ fs) :
    displayResponse vizDir fs text
      = .mdText (vizSub text) ::
          (vizFindAll text).map (fun g =>
            if joinPath vizDir g ∈ fs then .imgFile (joinPath vizDir g)
            else .warnMissing g) ∧
    DisplayItem.warnMissing f ∈ displayResponse vizDir fs text := by
  have hne : ¬ ((vizFindAll text).isEmpty = true) := by
    cases h : vizFindAll text with
    | nil => rw [h] at hf; exact absurd hf (List.not_mem_nil f)
    | cons a as => simp
  have heq : displayResponse vizDir fs text
      = .mdText (vizSub text) ::
          (vizFindAll text).map (fun g =>
            if joinPath vizDir g ∈ fs then .imgFile (joinPath vizDir g)
            else .warnMissing g) := by
    unfold displayResponse
    rw [if_neg hne]
  refine ⟨heq, ?_⟩
  rw [heq]
  refine List.mem_cons_of_mem _ ?_
  refine List.mem_map.mpr ⟨f, hf, ?_⟩
  rw [if_neg hmiss]

theorem spec_c4_missing_artifact_warning_witness :
    ("viz_deadbeef.png".toList
      ∈ vizFindAll "Result: [VIZ:viz_deadbeef.png] done".toList) ∧
    (joinPath "/w/viz_outputs".toList "viz_deadbeef.png".toList
      ∉ ([] : List (List Char))) ∧
    DisplayItem.warnMissing "viz_deadbeef.png".toList
      ∈ displayResponse "/w/viz_outputs".toList []
          "Result: [VIZ:viz_deadbeef.png] done".toList ∧
    displayResponse "/w/viz_outputs".toList []
        "Result: [VIZ:viz_deadbeef.png] done".toList
      = [.mdText "Result:  done".toList,
         .warnMissing "viz_deadbeef.png".toList] :=
  ⟨by decide, by decide,
    (spec_c4_missing_artifact_warning "/w/viz_outputs".toList []
      "Result: [VIZ:viz_deadbeef.png] done".toList "viz_deadbeef.png".toList
      (by decide) (by decide)).2, rfl⟩

/-- C5 counterexample: the tag `[VIZ:x[VIZ:viz_deadbeef.png]` is of the
form `[VIZ:<name>]` with a malformed name (`x[VIZ:viz_deadbeef` contains
characters outside the class), yet extraction matches the well-formed
tag embedded inside it and stripping removes that part, so the malformed
reference is not left in the rendered text as literal text. -/
theorem spec_c5_counterexample :
    "[VIZ:x[VIZ:viz_deadbeef.png]".toList
      = vizTag "x[VIZ:viz_deadbeef.png".toList ∧
    isValidFnameB "x[VIZ:viz_deadbeef.png".toList = false ∧
    vizFindAll "[VIZ:x[VIZ:viz_deadbeef.png]".toList
      = ["viz_deadbeef.png".toList] ∧
    vizSub "[VIZ:x[VIZ:viz_deadbeef.png]".toList = "[VIZ:x".toList :=
  ⟨rfl, rfl, rfl, rfl⟩

/-- C5 (amended): a malformed filename is never collected — every
collected filename is a nonempty word-character run ending in `.png` —
and a tag whose malformed name contains no square bracket is left in the
rendered text verbatim and contributes no match; only a malformed name
that itself embeds a complete well-formed tag can lose that inner part. -/
theorem spec_c5_injection_guard_amended :
    (∀ (t nm : List Char), nm ∈ vizFindAll t → isValidFnameB nm = true) ∧
    (∀ pre name post : List Char, isValidFnameB name = false →
      '[' ∉ name → ']' ∉ name →
      vizFindAll (pre ++ (vizTag name ++ post))
        = vizFindAll pre ++ vizFindAll post ∧
      vizSub (pre ++ (vizTag name ++ post))
        = vizSub pre ++ (vizTag name ++ vizSub post)) := by
  constructor
  · intro t nm h
    exact vizScanF_sound t.length t nm h
  · intro pre name post hval hlb hrb
    exact vizScan_decomp_invalid pre name post hval hlb hrb

theorem spec_c5_injection_guard_amended_witness :
    isValidFnameB "chart.jpeg".toList = false ∧
    '[' ∉ "chart.jpeg".toList ∧ ']' ∉ "chart.jpeg".toList ∧
    (vizFindAll ("see ".toList ++ (vizTag "chart.jpeg".toList ++ " now".toList))
        = vizFindAll "see ".toList ++ vizFindAll " now".toList ∧
      vizSub ("see ".toList ++ (vizTag "chart.jpeg".toList ++ " now".toList))
        = vizSub "see ".toList ++ (vizTag "chart.jpeg".toList
            ++ vizSub " now".toList)) :=
  ⟨rfl, by decide, by decide,
    spec_c5_injection_guard_amended.2 "see ".toList "chart.jpeg".toList
      " now".toList rfl (by decide) (by decide)⟩

/-- C6: one logical row set represented as the native structure, as a
strict JSON string, or as a permissive Python-literal string normalizes
to the same value (order and field values preserved).  The precedence —
native structures pass through untouched, strings try `json.loads`
first and `ast.literal_eval` only on failure — is the definition of
`parseData`; the Python-literal case below goes through that chain
(via `json.loads` when the two texts coincide, via the fallback when
`json.loads` rejects the single-quoted keys). -/
theorem spec_c6_shape_roundtrip (t : Table) (hp : plainTable t = true) :
    parseData (tableVal t) = .ok (tableVal t) ∧
    parseData (.pyStr (tableJson t)) = .ok (tableVal t) ∧
    parseData (.pyStr (tablePy t)) = .ok (tableVal t) := by
  refine ⟨rfl, ?_, ?_⟩
  · show (match jsonLoads (tableJson t) with
      | some v => Except.ok v
      | none =>
        match literalEval (tableJson t) with
        | some v => Except.ok v
        | none => Except.error (VizError.dataFormat (errPrefix ++ (tableJson t).take 100)))
      = Except.ok (tableVal t)
    rw [jsonLoads_tableJson t hp]
  · show (match jsonLoads (tablePy t) with
      | some v => Except.ok v
      | none =>
        match literalEval (tablePy t) with
        | some v => Except.ok v
        | none => Except.error (VizError.dataFormat (errPrefix ++ (tablePy t).take 100)))
      = Except.ok (tableVal t)
    by_cases hall : ∀ r ∈ t, r = []
    · rw [tablePy_eq_tableJson_of_empty_rows t hall, jsonLoads_tableJson t hp]
    · push_neg at hall
      obtain ⟨r, hr, hner⟩ := hall
      rw [jsonLoads_tablePy_fail t ⟨r, hr, hner⟩]
      rw [literalEval_tablePy t hp]

theorem spec_c6_shape_roundtrip_witness :
    plainTable
      [[("category".toList, Scalar.sStr "A".toList), ("revenue".toList, Scalar.sInt 100)],
       [("category".toList, Scalar.sStr "B".toList), ("revenue".toList, Scalar.sInt 50)]]
      = true ∧
    (parseData (tableVal
        [[("category".toList, Scalar.sStr "A".toList), ("revenue".toList, Scalar.sInt 100)],
         [("category".toList, Scalar.sStr "B".toList), ("revenue".toList, Scalar.sInt 50)]])
      = .ok (tableVal
        [[("category".toList, Scalar.sStr "A".toList), ("revenue".toList, Scalar.sInt 100)],
         [("category".toList, Scalar.sStr "B".toList), ("revenue".toList, Scalar.sInt 50)]]) ∧
    parseData (.pyStr (tableJson
        [[("category".toList, Scalar.sStr "A".toList), ("revenue".toList, Scalar.sInt 100)],
         [("category".toList, Scalar.sStr "B".toList), ("revenue".toList, Scalar.sInt 50)]]))
      = .ok (tableVal
        [[("category".toList, Scalar.sStr "A".toList), ("revenue".toList, Scalar.sInt 100)],
         [("category".toList, Scalar.sStr "B".toList), ("revenue".toList, Scalar.sInt 50)]]) ∧
    parseData (.pyStr (tablePy
        [[("category".toList, Scalar.sStr "A".toList), ("revenue".toList, Scalar.sInt 100)],
         [("category".toList, Scalar.sStr "B".toList), ("revenue".toList, Scalar.sInt 50)]]))
      = .ok (tableVal
        [[("category".toList, Scalar.sStr "A".toList), ("revenue".toList, Scalar.sInt 100)],
         [("category".toList, Scalar.sStr "B".toList), ("revenue".toList, Scalar.sInt 50)]])) :=
  ⟨by decide,
    spec_c6_shape_roundtrip
      [[("category".toList, Scalar.sStr "A".toList), ("revenue".toList, Scalar.sInt 100)],
       [("category".toList, Scalar.sStr "B".toList), ("revenue".toList, Scalar.sInt 50)]]
      (by decide)⟩

/-- C7 counterexample: there is no `EmptyTableError` anywhere in the
code; a zero-row table fails because the empty DataFrame has no columns,
so the x selector is reported missing (a `KeyError`, modelled as
`missingColumn`), which is a different error from the spec's
`EmptyTableError`. -/
theorem spec_c7_counterexample :
    createBarChart "/app".toList "/out".toList ([] : Table) "category".toList
        "revenue".toList "0123abcd".toList []
      = (.error (.missingColumn "category".toList), []) ∧
    VizError.missingColumn "category".toList ≠ VizError.emptyTable :=
  ⟨rfl, by decide⟩

/-- C7 (amended): no `EmptyTableError` exists in the code, and zero-row
requests do not fail uniformly.  A zero-row table is an empty DataFrame
with no columns, so the bar chart fails with the missing-column error
naming the x column and the box plot fails with the missing-column
error naming the value column, in both cases writing no artifact; but
the line chart silently skips all of its (absent) y columns, never
validates the x column, succeeds, and writes an artifact. -/
theorem spec_c7_empty_table_amended (cwd outDir x y v g hex : List Char)
    (fs : List (List Char)) :
    createBarChart cwd outDir ([] : Table) x y hex fs
      = (.error (.missingColumn x), fs) ∧
    createBoxPlot cwd outDir ([] : Table) v g hex fs
      = (.error (.missingColumn v), fs) ∧
    (createLineChart cwd outDir ([] : Table) x y hex fs).1
      = .ok (saveFigure cwd outDir hex fs).1 ∧
    (createLineChart cwd outDir ([] : Table) x y hex fs).2
      = writeFile (saveFigure cwd outDir hex fs).1 fs := by
  have hpres : (yColsOf y).filter (fun c => decide (c ∈ dfColumns ([] : Table))) = [] := by
    apply List.filter_eq_nil_iff.mpr
    intro c _
    simp [dfColumns]
  refine ⟨?_, ?_, ?_, ?_⟩
  · unfold createBarChart
    rw [if_pos (show x ∉ dfColumns ([] : Table) from List.not_mem_nil x)]
  · unfold createBoxPlot
    rw [if_neg (show ¬ (g ≠ [] ∧ g ∈ dfColumns ([] : Table)) from
      fun hc => List.not_mem_nil g hc.2)]
    rw [if_pos (show v ∉ dfColumns ([] : Table) from List.not_mem_nil v)]
  · unfold createLineChart
    rw [if_neg (show ¬ ((yColsOf y).filter (fun c => decide (c ∈ dfColumns ([] : Table))) ≠ []
        ∧ x ∉ dfColumns ([] : Table)) from fun hc => hc.1 hpres)]
  · unfold createLineChart
    rw [if_neg (show ¬ ((yColsOf y).filter (fun c => decide (c ∈ dfColumns ([] : Table))) ≠ []
        ∧ x ∉ dfColumns ([] : Table)) from fun hc => hc.1 hpres)]
    exact saveFigure_fs cwd outDir hex fs

/-- C8: a line-chart request whose y selector is a comma-delimited list
of column names, all present in the table, draws exactly one series per
named column, legend-labelled by that column name, all sharing
`df[x_column]` as the x axis, and produces exactly one artifact. -/
theorem spec_c8_line_multiseries (cwd outDir : List Char) (t : Table)
    (x yc hex : List Char) (fs : List (List Char))
    (hx : x ∈ dfColumns t)
    (hcols : ∀ c ∈ yColsOf yc, c ∈ dfColumns t) :
    (lineSeries t x yc).map (fun s => s.1) = yColsOf yc ∧
    (∀ s ∈ lineSeries t x yc, s.2.1 = colVals t x) ∧
    (createLineChart cwd outDir t x yc hex fs).1
      = .ok (saveFigure cwd outDir hex fs).1 ∧
    (createLineChart cwd outDir t x yc hex fs).2
      = writeFile (saveFigure cwd outDir hex fs).1 fs := by
  have hfil : (yColsOf yc).filter (fun c => decide (c ∈ dfColumns t)) = yColsOf yc :=
    List.filter_eq_self.mpr (fun c hc => by simpa using hcols c hc)
  refine ⟨?_, ?_, ?_, ?_⟩
  · unfold lineSeries
    rw [hfil, List.map_map]
    have hcomp : ((fun (s : List Char × List (Option Scalar) × List (Option Scalar)) => s.1)
        ∘ fun c => (c, colVals t x, colVals t c)) = fun c => c := rfl
    rw [hcomp]
    exact List.map_id' _
  · intro s hs
    unfold lineSeries at hs
    rw [hfil] at hs
    obtain ⟨c, _, hc2⟩ := List.mem_map.mp hs
    rw [← hc2]
  · unfold createLineChart
    rw [if_neg (show ¬ ((yColsOf yc).filter (fun c => decide (c ∈ dfColumns t)) ≠ []
        ∧ x ∉ dfColumns t) from fun hc => hc.2 hx)]
  · unfold createLineChart
    rw [if_neg (show ¬ ((yColsOf yc).filter (fun c => decide (c ∈ dfColumns t)) ≠ []
        ∧ x ∉ dfColumns t) from fun hc => hc.2 hx)]
    exact saveFigure_fs cwd outDir hex fs

set_option maxRecDepth 10000 in
theorem spec_c8_line_multiseries_witness :
    ("month".toList ∈ dfColumns ((List.range 12).map (fun i =>
      [("month".toList, Scalar.sInt i), ("orders".toList, Scalar.sInt (10 + i)),
       ("revenue".toList, Scalar.sInt (100 + i))]))) ∧
    (∀ c ∈ yColsOf "orders,revenue".toList,
      c ∈ dfColumns ((List.range 12).map (fun i =>
        [("month".toList, Scalar.sInt i), ("orders".toList, Scalar.sInt (10 + i)),
         ("revenue".toList, Scalar.sInt (100 + i))]))) ∧
    (lineSeries ((List.range 12).map (fun i =>
        [("month".toList, Scalar.sInt i), ("orders".toList, Scalar.sInt (10 + i)),
         ("revenue".toList, Scalar.sInt (100 + i))]))
      "month".toList "orders,revenue".toList).map (fun s => s.1)
      = yColsOf "orders,revenue".toList ∧
    (lineSeries ((List.range 12).map (fun i =>
        [("month".toList, Scalar.sInt i), ("orders".toList, Scalar.sInt (10 + i)),
         ("revenue".toList, Scalar.sInt (100 + i))]))
      "month".toList "orders,revenue".toList).length = 2 :=
  ⟨by decide, by decide,
    (spec_c8_line_multiseries "/app".toList "/out".toList
      ((List.range 12).map (fun i =>
        [("month".toList, Scalar.sInt i), ("orders".toList, Scalar.sInt (10 + i)),
         ("revenue".toList, Scalar.sInt (100 + i))]))
      "month".toList "orders,revenue".toList "0123abcd".toList []
      (by decide) (by decide)).1, rfl⟩

/-- C9: when both the strict JSON parse and the permissive literal parse
fail on a string payload, normalization fails with the format error
whose message is the fixed prefix plus exactly the first 100 characters
of the offending input, so its length is bounded and the full payload
never appears for inputs longer than 100 characters. -/
theorem spec_c9_format_error_preview (s : List Char)
    (hj : jsonLoads s = none) (hl : literalEval s = none) :
    parseData (.pyStr s)
      = .error (.dataFormat (errPrefix ++ s.take 100)) ∧
    (errPrefix ++ s.take 100).length ≤ errPrefix.length + 100 := by
  constructor
  · show (match jsonLoads s with
      | some v => Except.ok v
      | none =>
        match literalEval s with
        | some v => Except.ok v
        | none => Except.error (VizError.dataFormat (errPrefix ++ s.take 100)))
      = Except.error (VizError.dataFormat (errPrefix ++ s.take 100))
    rw [hj, hl]
  · rw [List.length_append, List.length_take]
    omega

set_option maxRecDepth 10000 in
theorem spec_c9_format_error_preview_witness :
    jsonLoads (List.replicate 150 '{') = none ∧
    literalEval (List.replicate 150 '{') = none ∧
    (parseData (.pyStr (List.replicate 150 '{'))
      = .error (.dataFormat (errPrefix ++ (List.replicate 150 '{').take 100)) ∧
    (errPrefix ++ (List.replicate 150 '{').take 100).length
      ≤ errPrefix.length + 100) :=
  ⟨rfl, rfl, spec_c9_format_error_preview (List.replicate 150 '{') rfl rfl⟩

/-- C10: a payload that is neither a string nor a list nor a dict — a
number, a boolean or `None` — is returned by the normalizer unchanged,
with no error raised, flowing through to the renderer unvalidated. -/
theorem spec_c10_normalizer_passthrough (v : PyVal)
    (h : isStrListDict v = false) : parseData v = .ok v := by
  cases v with
  | pyStr s => exact absurd h (by simp [isStrListDict])
  | pyList xs => exact absurd h (by simp [isStrListDict])
  | pyDict kvs => exact absurd h (by simp [isStrListDict])
  | pyInt n => rfl
  | pyBool b => rfl
  | pyNone => rfl

theorem spec_c10_normalizer_passthrough_witness :
    isStrListDict (.pyInt 3) = false ∧ parseData (.pyInt 3) = .ok (.pyInt 3) :=
  ⟨rfl, spec_c10_normalizer_passthrough (.pyInt 3) rfl⟩

end SqlViz
